import Mathlib

/-!
A verification development for the vis "fiddle-tunes" analysis pipeline.

The definitions below are a shallow embedding of the Python sources:
  * `src/vis/analyzers/indexers/interval.py`  (interval classifier)
  * `src/models/experimenting.py`             (interval / n-gram statistics)
  * `src/models/indexed_piece.py`             (settings-keyed analysis cache)

Python strings are `String`/`List Char`; Python `dict`s are association
lists with first-match lookup; code that can raise an exception returns
`Option` (with `none` for the raised exception).  Floating-point values
that the code produces (`semitones / 2.0` and its modulo-6 reduction) are
exact halves, so they are represented by `ℚ`.
-/

set_option maxHeartbeats 1000000

/-! ## A model of the music21 pitch/interval facts used by the sources

The sources delegate pitch parsing and interval arithmetic to the external
music21 library (`music21.note.Note`, `music21.interval.Interval`).  The
fragment used by the repository is modelled here: note-name parsing (a step
letter `A`–`G`, an optional run of sharps `#` or flats `-`, an optional
octave number, anything else raising `PitchException`), diatonic generic
size, chromatic semitone distance, direction, and the quality-prefixed
interval name. -/

/-- Diatonic step data for a note letter: `(step number with C = 1, pitch
class in semitones)`; music21 accepts both upper- and lower-case letters.
Any other character raises `PitchException`, i.e. `none`. -/
def letterStep (c : Char) : Option (Nat × Nat) :=
  if c = 'C' ∨ c = 'c' then some (1, 0)
  else if c = 'D' ∨ c = 'd' then some (2, 2)
  else if c = 'E' ∨ c = 'e' then some (3, 4)
  else if c = 'F' ∨ c = 'f' then some (4, 5)
  else if c = 'G' ∨ c = 'g' then some (5, 7)
  else if c = 'A' ∨ c = 'a' then some (6, 9)
  else if c = 'B' ∨ c = 'b' then some (7, 11)
  else none

/-- A parsed pitch: its diatonic note number (`7 * octave + step`, music21's
`diatonicNoteNum` counts C4 as octave 4, step 1) and its pitch-space value
in semitones (`12 * (octave + 1) + pitch class + alteration`). -/
structure PitchV where
  dnn : Int
  ps : Int
  deriving DecidableEq

/-- Parse the accidental and octave part of a note name: an optional run of
`#` (sharps) or `-` (flats), then an optional run of digits giving the
octave (music21's implicit octave 4 when absent).  Returns
`(alteration, octave)` or `none` for a malformed name. -/
def parseAccOct (cs : List Char) : Option (Int × Nat) :=
  let alter : Int :=
    match cs with
    | '#' :: _ => (cs.takeWhile (· = '#')).length
    | '-' :: _ => -((cs.takeWhile (· = '-')).length : Int)
    | _ => 0
  let rest :=
    match cs with
    | '#' :: _ => cs.dropWhile (· = '#')
    | '-' :: _ => cs.dropWhile (· = '-')
    | _ => cs
  if rest = [] then some (alter, 4)
  else if rest.all Char.isDigit then
    some (alter, rest.foldl (fun a c => 10 * a + (c.toNat - '0'.toNat)) 0)
  else none

/-- Model of `music21.note.Note(name)`: parse a note name into a pitch, or
`none` when music21 would raise a `PitchException` (in particular for the
string `"Rest"`, whose first character is not a step letter). -/
def parsePitch (s : String) : Option PitchV :=
  match s.toList with
  | [] => none
  | c :: rest =>
    match letterStep c with
    | none => none
    | some (step, pc) =>
      match parseAccOct rest with
      | none => none
      | some (alter, oct) =>
        some ⟨7 * (oct : Int) + step, 12 * ((oct : Int) + 1) + pc + alter⟩

/-- The interval data music21 derives from an ordered pair of pitches
(`Interval(noteStart, noteEnd)`): signed semitone distance, direction,
directed and undirected generic size, and the quality-prefixed name. -/
structure IntervalV where
  semitones : Int
  direction : Int
  genericUndirected : Nat
  genericSimpleUndirected : Nat
  name : String
  deriving DecidableEq

/-- Semitone span of the simple generic sizes 1–7 in the major scale, the
`noteVals` table of music21's specifier computation. -/
def genericBaseSemis (simpleU : Nat) : Nat :=
  match simpleU with
  | 1 => 0 | 2 => 2 | 3 => 4 | 4 => 5 | 5 => 7 | 6 => 9 | 7 => 11
  | _ => 0

/-- Quality string ("specifier") of an interval from its generic size and
semitone content, following music21's `_getSpecifierFromGenericChromatic`:
perfect-type sizes (simple 1, 4, 5) use `P`/`A…`/`d…`, the others use
`M`/`m`/`A…`/`d…`. -/
def qualityStr (gu : Nat) (theseSemis : Int) : String :=
  let simpleU := (gu - 1) % 7 + 1
  let octs := (gu - 1) / 7
  let normal : Int := genericBaseSemis simpleU + 12 * octs
  let diff : Int := theseSemis - normal
  if simpleU = 1 ∨ simpleU = 4 ∨ simpleU = 5 then
    if diff = 0 then "P"
    else if 0 < diff then String.mk (List.replicate diff.toNat 'A')
    else String.mk (List.replicate (-diff).toNat 'd')
  else
    if diff = 0 then "M"
    else if diff = -1 then "m"
    else if 0 < diff then String.mk (List.replicate diff.toNat 'A')
    else String.mk (List.replicate ((-diff).toNat - 1) 'd')

/-- Model of `music21.interval.Interval(noteStart, noteEnd)` on two parsed
pitches: `low` is `noteStart`, `high` is `noteEnd`. -/
def mkInterval (low high : PitchV) : IntervalV :=
  let d : Int := high.dnn - low.dnn
  let gu : Nat := d.natAbs + 1
  let semis : Int := high.ps - low.ps
  let genDir : Int := if d = 0 then 0 else if 0 < d then 1 else -1
  let chromDir : Int := if semis = 0 then 0 else if 0 < semis then 1 else -1
  let theseSemis : Int :=
    if genDir ≠ 0 ∧ chromDir ≠ 0 ∧ genDir ≠ chromDir
    then -(semis.natAbs : Int) else (semis.natAbs : Int)
  { semitones := semis
    direction := chromDir
    genericUndirected := gu
    genericSimpleUndirected := (gu - 1) % 7 + 1
    name := qualityStr gu theseSemis ++ toString gu }

/-! ## `interval.py` — the interval classifier `real_indexer` -/

/-- Result of `real_indexer`: Python's `None`, a unicode string, or (in the
by-tones modes) a float, represented exactly as a rational. -/
inductive IxResult where
  | pyNone
  | str (s : String)
  | flt (q : ℚ)
  deriving DecidableEq

/-- Python's float modulo as used in `real_indexer`: `a % b` with the sign
of `b` (the code uses `post % 6.0` for nonnegative `post` and
`post % (-6.0)` otherwise). -/
def pymodQ (a b : ℚ) : ℚ := a - b * ⌊a / b⌋

/-- Embedding of `real_indexer(simultaneity, simple, quality, byTones)`
from `src/vis/analyzers/indexers/interval.py` (lines 105–151):

  * a simultaneity that does not have exactly two elements returns `None`;
  * `upper, lower = simultaneity`; `Interval(Note(lower), Note(upper))`
    raising `PitchException` (e.g. on `'Rest'`) returns `u'Rest'`;
  * otherwise `post` starts as `'-'` for a descending interval, the quality
    letters of the interval name are appended in quality mode, `post` is
    replaced by the tone count in by-tones mode, and the final `if`-chain
    appends the generic size only in the quality modes. -/
def real_indexer (simultaneity : List String) (simple quality byTones : Bool) :
    IxResult :=
  match simultaneity with
  | [upper, lower] =>
    match parsePitch lower, parsePitch upper with
    | some pLow, some pUp =>
      let interv := mkInterval pLow pUp
      let sign : String := if interv.direction < 0 then "-" else ""
      if quality then
        let post := sign ++
          String.mk (interv.name.toList.filter (fun c =>
            c = 'A' ∨ c = 'M' ∨ c = 'P' ∨ c = 'm' ∨ c = 'd'))
        if simple then
          IxResult.str (post ++
            (if interv.genericUndirected = 8 then "8"
             else toString interv.genericSimpleUndirected))
        else
          IxResult.str (post ++ toString interv.genericUndirected)
      else if byTones then
        let toneFlt : ℚ := (interv.semitones : ℚ) / 2
        if simple then
          IxResult.flt (if 0 ≤ toneFlt then pymodQ toneFlt 6 else pymodQ toneFlt (-6))
        else
          IxResult.flt toneFlt
      else
        IxResult.str sign
    | _, _ => IxResult.str "Rest"
  | _ => IxResult.pyNone

/-- `indexer_nq_simple(ecks)`: simple intervals without quality. -/
def indexer_nq_simple (ecks : List String) : IxResult :=
  real_indexer ecks true false false

/-- `indexer_nq_comp(ecks)`: compound intervals without quality. -/
def indexer_nq_comp (ecks : List String) : IxResult :=
  real_indexer ecks false false false

/-- `indexer_qual_simple(ecks)`: simple intervals with quality. -/
def indexer_qual_simple (ecks : List String) : IxResult :=
  real_indexer ecks true true false

/-- `indexer_qual_comp(ecks)`: compound intervals with quality. -/
def indexer_qual_comp (ecks : List String) : IxResult :=
  real_indexer ecks false true false

/-- `indexer_tones_simple(ecks)`: simple intervals by tones. -/
def indexer_tones_simple (ecks : List String) : IxResult :=
  real_indexer ecks true false true

/-- `indexer_tones_comp(ecks)`: compound intervals by tones. -/
def indexer_tones_comp (ecks : List String) : IxResult :=
  real_indexer ecks false false true

/-! ## `experimenting.py` — `IntervalsStatistics.interval_sorter` -/

/-- Python's `str.replace` for the two direction characters: the code
removes every `'+'` and `'-'` from both arguments before comparing. -/
def stripDirections (l : List Char) : List Char :=
  l.filter (fun c => ¬ (c = '+' ∨ c = '-'))

/-- Numeric value of a digit string (most significant first). -/
def digitsVal (l : List Char) : Nat :=
  l.foldl (fun a c => 10 * a + (c.toNat - '0'.toNat)) 0

/-- Model of Python's `int(s)` on a string: whitespace is trimmed, an
optional sign is read, and the remainder must be a nonempty digit string;
otherwise `int` raises `ValueError` (`none`).  In `interval_sorter` the
argument has already had every `'+'`/`'-'` removed, so the sign cases are
vacuous there, but they belong to `int`. -/
def pyInt (l : List Char) : Option Int :=
  let t := (l.dropWhile Char.isWhitespace).reverse.dropWhile Char.isWhitespace |>.reverse
  match t with
  | [] => none
  | c :: ds =>
    if c = '-' then
      if ds ≠ [] ∧ ds.all Char.isDigit then some (-(digitsVal ds : Int)) else none
    else if c = '+' then
      if ds ≠ [] ∧ ds.all Char.isDigit then some ((digitsVal ds : Int)) else none
    else if (c :: ds).all Char.isDigit then some ((digitsVal (c :: ds) : Int))
    else none

/-- The quality chain of `interval_sorter` (lines 541–556), reached with
both first characters in hand: `d` loses, then `A` wins, then `m` loses;
everything else ties. -/
def qualityChain (lq rq : Char) : Int :=
  if lq = 'd' then -1
  else if rq = 'd' then 1
  else if lq = 'A' then 1
  else if rq = 'A' then -1
  else if lq = 'm' then -1
  else if rq = 'm' then 1
  else 0

/-- Worker for `IntervalsStatistics.interval_sorter(left, right)`
(`src/models/experimenting.py` lines 496–558) on character lists:

  * both arguments have their `'+'`/`'-'` characters removed;
  * `left[0]` is inspected (raising `IndexError`, i.e. `none`, on an empty
    string); if it is a digit, `right[0]` is inspected likewise, and when
    both are digits a `'P'` is prefixed to both;
  * equal strings compare as `0`; otherwise `int(left[1:])` and
    `int(right[1:])` order by generic size, and equal sizes fall through
    to the quality chain. -/
def intervalSorterL (left right : List Char) : Option Int :=
  let l := stripDirections left
  let r := stripDirections right
  match l with
  | [] => none
  | lc :: _ =>
    let pref : Option (List Char × List Char) :=
      if lc.isDigit then
        match r with
        | [] => none
        | rc :: _ => if rc.isDigit then some ('P' :: l, 'P' :: r) else some (l, r)
      else some (l, r)
    match pref with
    | none => none
    | some (l, r) =>
      if l = r then some 0
      else
        match pyInt (l.drop 1), pyInt (r.drop 1) with
        | some nl, some nr =>
          if nl < nr then some (-1)
          else if nr < nl then some 1
          else
            match l, r with
            | lq :: _, rq :: _ => some (qualityChain lq rq)
            | _, _ => none
        | _, _ => none

/-- `IntervalsStatistics.interval_sorter` on strings; `none` models a
raised exception (`IndexError`/`ValueError`). -/
def interval_sorter (left right : String) : Option Int :=
  intervalSorterL left.toList right.toList

/-! ## `experimenting.py` — `IntervalNGramStatistics.ngram_sorter` -/

/-- Python's `str.strip()`: remove leading and trailing whitespace. -/
def pyStrip (l : List Char) : List Char :=
  (l.dropWhile Char.isWhitespace).reverse.dropWhile Char.isWhitespace |>.reverse

/-- Fuel-metered worker for
`IntervalNGramStatistics.ngram_sorter(left, right)`
(`src/models/experimenting.py` lines 741–807).  Each recursive call of the
Python function shortens `left` by at least one character, so the wrapper's
fuel of `left.length + 1` never runs out (`ngramSorterFuel_congr`).

  * both arguments are stripped; `find(' ')` locates the first space;
  * if neither has a space the pair is delegated to `interval_sorter`;
    a space on exactly one side makes the spaceless side smaller;
  * otherwise the leading tokens are compared with `interval_sorter` and
    a `0` result recurses on the remainders. -/
def ngramSorterFuel : Nat → List Char → List Char → Option Int
  | 0, _, _ => none
  | fuel + 1, left, right =>
    let ls := pyStrip left
    let rs := pyStrip right
    match ls.findIdx? (· = ' '), rs.findIdx? (· = ' ') with
    | none, none => intervalSorterL ls rs
    | none, some _ => some (-1)
    | some _, none => some 1
    | some li, some ri =>
      match intervalSorterL (ls.take li) (rs.take ri) with
      | none => none
      | some v =>
        if v ≠ 0 then some v
        else ngramSorterFuel fuel (ls.drop (li + 1)) (rs.drop (ri + 1))

/-- `IntervalNGramStatistics.ngram_sorter` on strings; `none` models a
raised exception from `interval_sorter`. -/
def ngram_sorter (left right : String) : Option Int :=
  ngramSorterFuel (left.toList.length + 1) left.toList right.toList

/-- Space-join of a token list, the string form n-grams are compared in. -/
def joinTokens (ts : List (List Char)) : List Char :=
  match ts with
  | [] => []
  | t :: rest => t ++ (rest.flatMap (fun u => ' ' :: u))

/-- A well-formed n-gram token: nonempty, free of whitespace, and still
nonempty after `interval_sorter` strips the direction characters. -/
def WfToken (t : List Char) : Prop :=
  t ≠ [] ∧ (∀ c ∈ t, ¬ c.isWhitespace) ∧ stripDirections t ≠ []

instance (t : List Char) : Decidable (WfToken t) := by
  unfold WfToken; infer_instance

/-! ## `experimenting.py` — the `IntervalsStatistics.perform` filter stage

`perform` (lines 563–646) first builds the occurrence dictionary
`self._intervals` (step 1); the statistics stage that follows (steps 2–6)
only consumes that dictionary.  It is embedded here as a function of the
dictionary, modelled as an association list in insertion order. -/

/-- Count of a key in an occurrence dictionary (`self._intervals[x]`; every
key that is looked up is present, so the default is never consulted for the
code's own keys). -/
def cntOf (counts : List (String × Nat)) (k : String) : Nat :=
  match counts with
  | [] => 0
  | e :: rest => if e.1 = k then e.2 else cntOf rest k

/-- Stable insert for a descending sort by `f`, Python's
`sorted(…, key=f, reverse=True)` tie behavior: an element inserted into the
sorted remainder goes before the first element of no larger key. -/
def insDesc {α : Type} (f : α → Nat) (x : α) : List α → List α
  | [] => [x]
  | y :: ys => if f y ≤ f x then x :: y :: ys else y :: insDesc f x ys

/-- Stable descending sort by `f` (Python's `sorted(…, reverse=True)`). -/
def sortDesc {α : Type} (f : α → Nat) : List α → List α
  | [] => []
  | x :: xs => insDesc f x (sortDesc f xs)

/-- Stable insert for an ascending sort by `f`. -/
def insAsc {α : Type} (f : α → Nat) (x : α) : List α → List α
  | [] => [x]
  | y :: ys => if f x ≤ f y then x :: y :: ys else y :: insAsc f x ys

/-- Stable ascending sort by `f` (Python's `sorted(…)`). -/
def sortAsc {α : Type} (f : α → Nat) : List α → List α
  | [] => []
  | x :: xs => insAsc f x (sortAsc f xs)

/-- Step 4's final sorting plus step 5's pairing with the counts, for the
default `sort_by = 'frequency'` branch: sort back by frequency, reversed
unless `sort_order` is `'ascending'`, then emit `(key, count)` pairs. -/
def finalFreqSort (counts : List (String × Nat)) (ascending : Bool)
    (keys : List String) : List (String × Nat) :=
  let sorted := if ascending then sortAsc (cntOf counts) keys
                else sortDesc (cntOf counts) keys
  sorted.map (fun k => (k, cntOf counts k))

/-- Embedding of the statistics stage of `IntervalsStatistics.perform`
(`src/models/experimenting.py` lines 598–646), with `sort_by` at its
default `'frequency'`:

  * with a `topX` or `threshold` setting, the keys are sorted by
    descending frequency; `topX` truncates to the first `topX` keys;
  * `threshold` inspects `self._intervals[self._keys[-1]]` — an
    `IndexError` (`none`) on an empty key list — and, when that last count
    is below the threshold, keeps only the keys with at least `threshold`
    occurrences;
  * without either setting the keys are taken as they are;
  * finally the keys are re-sorted by frequency (descending unless
    `sort_order = 'ascending'`) and paired with their counts. -/
def intervalsStatsPerform (counts : List (String × Nat))
    (topX threshold : Option Nat) (ascending : Bool) :
    Option (List (String × Nat)) :=
  if topX.isSome ∨ threshold.isSome then
    let keys := sortDesc (cntOf counts) (counts.map Prod.fst)
    let keys := match topX with
      | some x => keys.take x
      | none => keys
    match threshold with
    | none => some (finalFreqSort counts ascending keys)
    | some thresh =>
      match keys.getLast? with
      | none => none
      | some lastKey =>
        let keys :=
          if cntOf counts lastKey < thresh then
            keys.filter (fun k => thresh ≤ cntOf counts k)
          else keys
        some (finalFreqSort counts ascending keys)
  else
    some (finalFreqSort counts ascending (counts.map Prod.fst))

/-- The filter order the specification describes, stated in its words:
drop the tokens whose count is strictly less than the threshold first,
then keep the first `topX` of the remaining frequency-sorted keys, then
final-sort as in the code.  `intervalsStatsPerform` is proved extensionally
equal to this on every nonempty dictionary. -/
def specThresholdThenTop (counts : List (String × Nat))
    (topX threshold : Nat) (ascending : Bool) : List (String × Nat) :=
  let keys := sortDesc (cntOf counts) (counts.map Prod.fst)
  let keys := keys.filter (fun k => threshold ≤ cntOf counts k)
  finalFreqSort counts ascending (keys.take topX)

/-- Embedding of `WorkflowManager._get_dataframe(name, top_x, threshold)`
(`src/workflow.py` lines 557–581) on the held result series, modelled as
its ordered `(token, count)` rows (the one-column `DataFrame` wrapper and
its column name carry no further content):

  * with a threshold, `post = self._result[self._result > threshold]`
    keeps only the rows whose count is **strictly greater** than the
    threshold — a count equal to the threshold is dropped, although the
    function's own docstring says only counts strictly less than the
    threshold are excluded;
  * with a `top_x`, `post = post[:top_x]` then keeps the first `top_x`
    rows, so the threshold filter is applied first. -/
def get_dataframe (result : List (String × Nat))
    (top_x threshold : Option Nat) : List (String × Nat) :=
  let post := match threshold with
    | some t => result.filter (fun e => t < e.2)
    | none => result
  match top_x with
  | some x => post.take x
  | none => post

/-! ## `experimenting.py` — the `IntervalNGramStatistics.perform` n-gram scan

Step 1 of `IntervalNGramStatistics.perform` (lines 818–875) walks each
`AnalysisRecord`.  The embedding records, for every start index, which
`(start, n)` windows reach `_add_ngram` and at which positions the code
constructs an `Interval` object (line 844 for the start of each window,
line 863 for its extensions); the construction of `ngram.IntervalNGram`
and its string form (the `models/ngram.py` module, which is not among the
sources) plays no role in either question. -/

/-- One event of an `AnalysisRecord`: `(offset, (lower, upper))`. -/
structure AREvent where
  offset : ℚ
  lower : String
  upper : String
  deriving DecidableEq

/-- `each_record[k]`, with a default that no reachable access uses (every
access is guarded by `i+j > last_index`). -/
def evAt (record : List AREvent) (k : Nat) : AREvent :=
  record.getD k ⟨0, "", ""⟩

/-- The rest test of lines 834 and 858: either side of the simultaneity is
the string `'Rest'`. -/
def isRestEv (e : AREvent) : Bool :=
  e.lower = "Rest" ∨ e.upper = "Rest"

/-- Whether `Interval(Note(lower), Note(upper))` succeeds for an event;
an unparseable note raises (`none` for the whole scan). -/
def notesOk (e : AREvent) : Bool :=
  (parsePitch e.lower).isSome ∧ (parsePitch e.upper).isSome

/-- The inner `for j in xrange(1, each_n)` loop (lines 851–865) over a list
of offsets `j`: past-the-end and rest events set the kill switch (`true`);
otherwise an `Interval` is constructed at `i + j` (logged as `(i, i+j)`)
and the loop continues.  `none` is a raised exception from `Note`. -/
def ngramJLoop (record : List AREvent) (i : Nat) :
    List Nat → Option (Bool × List (Nat × Nat))
  | [] => some (false, [])
  | j :: rest =>
    if record.length - 1 < i + j then some (true, [])
    else if isRestEv (evAt record (i + j)) then some (true, [])
    else if notesOk (evAt record (i + j)) then
      (ngramJLoop record i rest).map (fun r => (r.1, (i, i + j) :: r.2))
    else none

/-- The `for each_n in values_of_n` loop (lines 842–874) for one start
index `i`: each `n` first constructs the `Interval` at `i` (line 844,
logged as `(i, i)`), runs the inner loop, and either breaks on the kill
switch or records the window `(i, n)` and goes on to the next `n`.
Returns `(windows added, constructions logged)`. -/
def ngramNLoop (record : List AREvent) (i : Nat) :
    List Nat → Option (List (Nat × Nat) × List (Nat × Nat))
  | [] => some ([], [])
  | n :: rest =>
    if notesOk (evAt record i) then
      match ngramJLoop record i (List.range' 1 (n - 1)) with
      | none => none
      | some (true, cs) => some ([], (i, i) :: cs)
      | some (false, cs) =>
        match ngramNLoop record i rest with
        | none => none
        | some (adds, cs2) => some ((i, n) :: adds, ((i, i) :: cs) ++ cs2)
    else none

/-- The `for i in xrange(len(each_record))` loop (lines 829–874): start
indices whose own simultaneity involves a rest are skipped outright. -/
def ngramILoop (record : List AREvent) (ns : List Nat) :
    List Nat → Option (List (Nat × Nat) × List (Nat × Nat))
  | [] => some ([], [])
  | i :: rest =>
    if isRestEv (evAt record i) then ngramILoop record ns rest
    else
      match ngramNLoop record i ns with
      | none => none
      | some (adds, cs) =>
        (ngramILoop record ns rest).map (fun r => (adds ++ r.1, cs ++ r.2))

/-- Step 1 of `IntervalNGramStatistics.perform` for one record: the values
of `n` are sorted ascending (line 826) and every start index is visited.
The first result component lists the `(start index, n)` windows for which
an n-gram reaches `_add_ngram`; the second logs every `Interval`
construction as `(start index, position)`. -/
def ngramScan (record : List AREvent) (valuesOfN : List Nat) :
    Option (List (Nat × Nat) × List (Nat × Nat)) :=
  ngramILoop record (sortAsc id valuesOfN) (List.range record.length)

/-! ## `indexed_piece.py` — `IndexedPiece.add_index`

`add_index` (lines 140–286) resolves each requested indexer, applies the
indexer's default settings, reuses a cached result when a stored settings
dict compares equal (`eval(each_setts) == this_settings`), recursively adds
required indexers, runs the indexer, and finally raises one `RuntimeError`
for the collected failures.

The indexer classes live behind `__import__(u'analyzers.indexer', …)` and
`eval`; the module `analyzers/indexer.py` itself is not among the sources.
Modelled from the spec: the registry of computation units — each unit
declares `possible_settings`, `default_settings`, whether it needs the
score, and `required_indices` — and an unresolvable name is the
`ImportError` that lands in `missing_indexers`.  Everything else below
follows `add_index` itself.  A nested `self.add_index(ind, …)` call is
encoded as `dep`/`run` jobs processed in place: the nested call's own
final `raise` happens right after its single indexer is processed, which
is exactly when the corresponding jobs finish. -/

/-- A settings value (Python scalars, compared by equality). -/
abbrev SettVal := String

/-- A settings mapping: a Python dict as an association list. -/
abbrev SettingsM := List (String × SettVal)

/-- First-match dict lookup. -/
def dictGet (d : SettingsM) (k : String) : Option SettVal :=
  match d with
  | [] => none
  | e :: rest => if e.1 = k then some e.2 else dictGet rest k

/-- Python dict equality (`eval(each_setts) == this_settings`): the same
keys map to the same values on both sides, independent of order. -/
def dictEq (a b : SettingsM) : Bool :=
  a.all (fun e => dictGet b e.1 = some e.2) ∧
  b.all (fun e => dictGet a e.1 = some e.2)

/-- Modelled from the spec: one registered computation unit ("Indexer"),
with its `possible_settings`, `default_settings`, `requires_score` flag
and `required_indices` — the class attributes `add_index` reads through
`eval`. -/
structure IndexerDecl where
  possible_settings : List String
  default_settings : SettingsM
  requires_score : Bool
  required_indices : List String
  deriving DecidableEq

/-- Modelled from the spec: the registry resolving an indexer name, i.e.
the `__import__`/`eval` lookup; `none` is the `ImportError` that puts the
name into `missing_indexers`. -/
abbrev Registry := List (String × IndexerDecl)

/-- Resolve an indexer name in the registry (the `__import__`/`eval` step;
`none` is the `ImportError`). -/
def regFind (reg : Registry) (nm : String) : Option IndexerDecl :=
  match reg with
  | [] => none
  | e :: rest => if e.1 = nm then some e.2 else regFind rest nm


/-- Lines 230–241: build `this_settings` over the indexer's
`possible_settings`, taking the caller's value when present, else the
declared default; a setting with neither spoils the indexer (`none`). -/
def resolveSettings (decl : IndexerDecl) (which : SettingsM) :
    Option SettingsM :=
  go decl.possible_settings
where
  go : List String → Option SettingsM
    | [] => some []
    | k :: rest =>
      match dictGet which k with
      | some v => (go rest).map (fun r => (k, v) :: r)
      | none =>
        match dictGet decl.default_settings k with
        | some v => (go rest).map (fun r => (k, v) :: r)
        | none => none

/-- The piece's `self._data`, keyed by indexer name; each indexer holds its
stored settings dicts in insertion order (the stored results themselves are
opaque to every claim). -/
abbrev PieceData := List (String × List SettingsM)

/-- The settings dicts stored for one indexer name. -/
def storedSettings (data : PieceData) (nm : String) : List SettingsM :=
  match data with
  | [] => []
  | e :: rest => if e.1 = nm then e.2 else storedSettings rest nm

/-- `this_indexer in self._data` / `ind not in self._data`: name-level
membership in the piece's data. -/
def dataHas (data : PieceData) (nm : String) : Bool :=
  match data with
  | [] => false
  | e :: rest => if e.1 = nm then true else dataHas rest nm

/-- `self._data[this_indexer][unicode(this_settings)] = …` (lines
271–273): create the indexer's dict when absent, then store under the
settings key. -/
def storeResult (data : PieceData) (nm : String) (rs : SettingsM) :
    PieceData :=
  match data with
  | [] => [(nm, [rs])]
  | e :: rest =>
    if e.1 = nm then (e.1, e.2 ++ [rs]) :: rest
    else e :: storeResult rest nm rs

/-- The exception `add_index` ends with, or `noFuel` when the modelled
recursion depth is exhausted (Python would recurse without bound).  Note
line 285: the `missing_settings` message interpolates
`unicode(missing_indexers)`, so the payload of `missingSett` is the
`missing_indexers` list — as in the code. -/
inductive AddIndexExc where
  | unknownUnits (named : List String)
  | missingSett (named : List String)
  | noFuel
  deriving DecidableEq, Repr

/-- A unit of work for `add_index`: a requested indexer from
`which_indexers` (failures collected), a prerequisite from
`required_indices` processed through a nested `add_index` call (failures
raised at once), or the pending run of a resolved indexer. -/
inductive AIJob where
  | user (nm : String)
  | dep (nm : String)
  | run (nm : String) (rs : SettingsM)
  deriving DecidableEq

/-- Lines 279–286: after the loop, raise for `missing_indexers` first,
`elif` for `missing_settings` — whose message names `missing_indexers`. -/
def finalizeAddIndex (mi ms : List String) : Option AddIndexExc :=
  if mi ≠ [] then some (AddIndexExc.unknownUnits mi)
  else if ms ≠ [] then some (AddIndexExc.missingSett mi)
  else none

/-- The body of `add_index`, processing one job per unit of fuel.
Returns the final `self._data`, the log of indexer executions
`(name, settings)` in order, and the raised exception if any. -/
def addIndexGo (reg : Registry) (which : SettingsM) :
    Nat → PieceData → List AIJob → List String → List String →
    List (String × SettingsM) →
    PieceData × List (String × SettingsM) × Option AddIndexExc
  | _, data, [], mi, ms, runs => (data, runs, finalizeAddIndex mi ms)
  | 0, data, _ :: _, _, _, runs => (data, runs, some AddIndexExc.noFuel)
  | fuel + 1, data, job :: jobs, mi, ms, runs =>
    match job with
    | AIJob.run nm rs =>
      addIndexGo reg which fuel (storeResult data nm rs) jobs mi ms
        (runs ++ [(nm, rs)])
    | AIJob.user nm =>
      match regFind reg nm with
      | none => addIndexGo reg which fuel data jobs (mi ++ [nm]) ms runs
      | some decl =>
        match resolveSettings decl which with
        | none => addIndexGo reg which fuel data jobs mi (ms ++ [nm]) runs
        | some rs =>
          if (storedSettings data nm).any (fun st => dictEq st rs) then
            addIndexGo reg which fuel data jobs mi ms runs
          else
            let deps :=
              if decl.requires_score then []
              else decl.required_indices.map AIJob.dep
            addIndexGo reg which fuel data
              (deps ++ AIJob.run nm rs :: jobs) mi ms runs
    | AIJob.dep nm =>
      if dataHas data nm then
        addIndexGo reg which fuel data jobs mi ms runs
      else
        match regFind reg nm with
        | none => (data, runs, some (AddIndexExc.unknownUnits [nm]))
        | some decl =>
          match resolveSettings decl which with
          | none => (data, runs, some (AddIndexExc.missingSett []))
          | some rs =>
            let deps :=
              if decl.requires_score then []
              else decl.required_indices.map AIJob.dep
            addIndexGo reg which fuel data
              (deps ++ AIJob.run nm rs :: jobs) mi ms runs

/-- `IndexedPiece.add_index(which_indexers, which_settings)` on the model
state: process the requested names in order, then raise per lines
279–286. -/
def add_index (reg : Registry) (fuel : Nat) (data : PieceData)
    (whichIndexers : List String) (whichSettings : SettingsM) :
    PieceData × List (String × SettingsM) × Option AddIndexExc :=
  addIndexGo reg whichSettings fuel data (whichIndexers.map AIJob.user)
    [] [] []

/-- The five interval qualities named by the comparator's contract
(`d`, `m`, `P`, `M`, `A`). -/
inductive Qual where
  | dim
  | minr
  | perf
  | majr
  | aug
  deriving DecidableEq

/-- The quality letter heading an interval label. -/
def qualLetter : Qual → Char
  | Qual.dim => 'd'
  | Qual.minr => 'm'
  | Qual.perf => 'P'
  | Qual.majr => 'M'
  | Qual.aug => 'A'

/-- The quality ranking the specification claims for `interval_sorter`:
`diminished < minor < perfect < major < augmented`. -/
def specQualRank : Qual → Nat
  | Qual.dim => 0
  | Qual.minr => 1
  | Qual.perf => 2
  | Qual.majr => 3
  | Qual.aug => 4

/-! # Theorems -/

/-- **C10** — For every mode, a simultaneity without exactly two elements
makes `real_indexer` return `None` (not an interval label, not the
`"Rest"` sentinel): the two-element check precedes any pitch parsing. -/
theorem real_indexer_non_pair_returns_none
    (sim : List String) (simple quality byTones : Bool)
    (h : sim.length ≠ 2) :
    real_indexer sim simple quality byTones = IxResult.pyNone := by
  match sim with
  | [] => rfl
  | [_] => rfl
  | [_, _] => exact absurd rfl h
  | _ :: _ :: _ :: _ => rfl

/-- Witness for C10 at a concrete three-element simultaneity. -/
theorem real_indexer_non_pair_returns_none_witness :
    real_indexer ["C4", "E4", "G4"] true false false = IxResult.pyNone :=
  real_indexer_non_pair_returns_none ["C4", "E4", "G4"] true false false
    (by decide)

/-- **C9** — With `'Rest'` as either event of a pair, `real_indexer`
returns the sentinel `"Rest"` in every mode: `Note('Rest')` raises
`PitchException`, which the classifier catches. -/
theorem real_indexer_rest_returns_rest
    (p q : String) (simple quality byTones : Bool)
    (h : p = "Rest" ∨ q = "Rest") :
    real_indexer [p, q] simple quality byTones = IxResult.str "Rest" := by
  have hrest : parsePitch "Rest" = none := rfl
  rcases h with h | h <;> subst h
  · cases hq : parsePitch q <;> simp [real_indexer, hq, hrest]
  · cases hp : parsePitch p <;> simp [real_indexer, hp, hrest]

/-- Witness for C9: a rest below a sounding note, quality-simple mode. -/
theorem real_indexer_rest_returns_rest_witness :
    real_indexer ["C4", "Rest"] true true false = IxResult.str "Rest" :=
  real_indexer_rest_returns_rest "C4" "Rest" true true false (Or.inr rfl)

/-- **C4** (code bug) — In the no-quality, non-by-tones modes the final
`if`-chain of `real_indexer` never appends the generic size, so the
classifier returns only the direction sign: the empty string for the
ascending third `C4–E4` and a bare `"-"` for the descending one, instead
of the bare generic sizes `"3"` and `"-3"` the claim (and the function's
own docstring) describe.  `indexer_nq_simple`/`indexer_nq_comp` inherit
the defect. -/
theorem real_indexer_no_quality_drops_size :
    real_indexer ["E4", "C4"] true false false = IxResult.str "" ∧
    real_indexer ["C4", "E4"] true false false = IxResult.str "-" ∧
    indexer_nq_simple ["E4", "C4"] = IxResult.str "" ∧
    indexer_nq_comp ["E4", "C4"] = IxResult.str "" ∧
    IxResult.str "" ≠ IxResult.str "3" ∧
    IxResult.str "-" ≠ IxResult.str "-3" := by
  refine ⟨rfl, rfl, rfl, rfl, by decide, by decide⟩

/-- **C8** (code bug) — A batch request mixing an unknown indexer
(`"Nope"`), an indexer whose required setting has no default (`"Bad"`),
and a fully-configured indexer (`"Good"`).  Processing continues past both
failures — `"Good"` is still run once and cached — but the raised error is
`RuntimeError(u'Unable to import requested Indexers: ' +
unicode(missing_indexers))`, naming only `["Nope"]`, never the
missing-settings unit; and when only settings are missing (second
conjunct), the `elif` branch's message interpolates `missing_indexers`,
an empty list, naming no unit at all.  No single aggregate report exists. -/
theorem add_index_error_report_not_aggregated :
    add_index
      [("Good", ⟨["a"], [("a", "1")], true, []⟩),
       ("Bad", ⟨["x"], [], true, []⟩)]
      9 [] ["Nope", "Bad", "Good"] [] =
      ([("Good", [[("a", "1")]])], [("Good", [("a", "1")])],
        some (AddIndexExc.unknownUnits ["Nope"])) ∧
    add_index
      [("Good", ⟨["a"], [("a", "1")], true, []⟩),
       ("Bad", ⟨["x"], [], true, []⟩)]
      9 [] ["Bad"] [] =
      ([], [], some (AddIndexExc.missingSett [])) := by
  refine ⟨rfl, rfl⟩

/-- **C3** (counterexample) — `interval_sorter` does not implement the
claimed quality ranking: at equal generic size a perfect and a major
quality compare as `0` although the claimed rank `d < m < P < M < A`
separates them, and comparing a bare numeral against a quality-lettered
label raises `ValueError` (`int('')`) instead of ranking the numeral as
perfect. -/
theorem interval_sorter_claim_fails :
    interval_sorter "P5" "M5" = some 0 ∧
    specQualRank Qual.perf ≠ specQualRank Qual.majr ∧
    interval_sorter "3" "P3" = none := by
  refine ⟨by decide, by decide, by decide⟩

/-- Storing a result appends the settings dict to the indexer's stored
settings. -/
theorem storedSettings_store (data : PieceData) (nm : String)
    (rs : SettingsM) :
    storedSettings (storeResult data nm rs) nm =
      storedSettings data nm ++ [rs] := by
  induction data with
  | nil => simp [storeResult, storedSettings]
  | cons e rest ih =>
    by_cases he : e.1 = nm
    · simp [storeResult, storedSettings, he]
    · simp [storeResult, storedSettings, he, ih]

/-- An empty job list just raises for the collected failures. -/
theorem addIndexGo_nil (reg : Registry) (which : SettingsM) (fuel : Nat)
    (data : PieceData) (mi ms : List String)
    (runs : List (String × SettingsM)) :
    addIndexGo reg which fuel data [] mi ms runs =
      (data, runs, finalizeAddIndex mi ms) := by
  cases fuel <;> rfl

/-- A requested indexer that resolves, has no matching cache entry and
needs no prerequisite jobs is run and stored, consuming two steps. -/
theorem addIndexGo_user_runs (reg : Registry) (which : SettingsM)
    (fuel : Nat) (data : PieceData) (nm : String) (decl : IndexerDecl)
    (rs : SettingsM) (jobs : List AIJob) (mi ms : List String)
    (runs : List (String × SettingsM))
    (hreg : regFind reg nm = some decl)
    (hres : resolveSettings decl which = some rs)
    (hmiss : (storedSettings data nm).any (fun st => dictEq st rs) = false)
    (hdeps : (if decl.requires_score then []
              else decl.required_indices.map AIJob.dep) = []) :
    addIndexGo reg which (fuel + 2) data (AIJob.user nm :: jobs) mi ms runs =
      addIndexGo reg which fuel (storeResult data nm rs) jobs mi ms
        (runs ++ [(nm, rs)]) := by
  show addIndexGo reg which (fuel + 1 + 1) data (AIJob.user nm :: jobs)
      mi ms runs = _
  simp only [addIndexGo, hreg, hres, hmiss, hdeps]
  rfl

/-- A requested indexer whose resolved settings match a stored settings
dict is skipped without running. -/
theorem addIndexGo_user_found (reg : Registry) (which : SettingsM)
    (fuel : Nat) (data : PieceData) (nm : String) (decl : IndexerDecl)
    (rs : SettingsM) (jobs : List AIJob) (mi ms : List String)
    (runs : List (String × SettingsM))
    (hreg : regFind reg nm = some decl)
    (hres : resolveSettings decl which = some rs)
    (hhit : (storedSettings data nm).any (fun st => dictEq st rs) = true) :
    addIndexGo reg which (fuel + 1) data (AIJob.user nm :: jobs) mi ms runs =
      addIndexGo reg which fuel data jobs mi ms runs := by
  simp only [addIndexGo, hreg, hres, hhit]
  rfl

/-- **C1** — Requesting the same indexer twice on one piece, with settings
that resolve (after the indexer's defaults) to dict-equal mappings, runs
the indexer exactly once: the first call runs and stores it, the second
call finds the stored settings dict equal to its own resolved settings —
whatever key order the caller used — and returns with no run, no error and
the piece data unchanged. -/
theorem add_index_runs_once_per_settings
    (reg : Registry) (f1 f2 : Nat) (data : PieceData) (nm : String)
    (decl : IndexerDecl) (s1 s2 rs1 rs2 : SettingsM)
    (hreg : regFind reg nm = some decl)
    (hsimple : decl.requires_score = true ∨ decl.required_indices = [])
    (hr1 : resolveSettings decl s1 = some rs1)
    (hr2 : resolveSettings decl s2 = some rs2)
    (heq : dictEq rs1 rs2 = true)
    (hfresh : ∀ st ∈ storedSettings data nm, dictEq st rs1 = false) :
    add_index reg (f1 + 2) data [nm] s1 =
      (storeResult data nm rs1, [(nm, rs1)], none) ∧
    add_index reg (f2 + 1) (storeResult data nm rs1) [nm] s2 =
      (storeResult data nm rs1, [], none) := by
  have hdeps : (if decl.requires_score then []
      else decl.required_indices.map AIJob.dep) = [] := by
    rcases hsimple with h | h
    · simp [h]
    · cases decl.requires_score <;> simp [h]
  have hmiss : (storedSettings data nm).any (fun st => dictEq st rs1) = false := by
    rw [List.any_eq_false]
    intro st hst
    simp [hfresh st hst]
  constructor
  · show addIndexGo reg s1 (f1 + 2) data [AIJob.user nm] [] [] [] = _
    rw [addIndexGo_user_runs reg s1 f1 data nm decl rs1 [] [] [] []
      hreg hr1 hmiss hdeps]
    rw [addIndexGo_nil]
    rfl
  · show addIndexGo reg s2 (f2 + 1) (storeResult data nm rs1)
        [AIJob.user nm] [] [] [] = _
    have hhit : (storedSettings (storeResult data nm rs1) nm).any
        (fun st => dictEq st rs2) = true := by
      rw [storedSettings_store]
      rw [List.any_eq_true]
      exact ⟨rs1, by simp, heq⟩
    rw [addIndexGo_user_found reg s2 f2 (storeResult data nm rs1) nm decl rs2
      [] [] [] [] hreg hr2 hhit]
    rw [addIndexGo_nil]
    rfl

/-- Witness for C1: a registry with one indexer taking two settings, the
two requests supplying the same settings in opposite key orders; the
indexer runs once and the second request is a cache hit. -/
theorem add_index_runs_once_per_settings_witness :
    add_index
      [("IntervalIndexer",
        ⟨["quality", "simple or compound"],
         [("quality", "False"), ("simple or compound", "compound")],
         true, []⟩)]
      2 [] ["IntervalIndexer"]
      [("simple or compound", "simple"), ("quality", "True")] =
      ([("IntervalIndexer",
          [[("quality", "True"), ("simple or compound", "simple")]])],
        [("IntervalIndexer",
          [("quality", "True"), ("simple or compound", "simple")])], none) ∧
    add_index
      [("IntervalIndexer",
        ⟨["quality", "simple or compound"],
         [("quality", "False"), ("simple or compound", "compound")],
         true, []⟩)]
      1 [("IntervalIndexer",
          [[("quality", "True"), ("simple or compound", "simple")]])]
      ["IntervalIndexer"]
      [("quality", "True"), ("simple or compound", "simple")] =
      ([("IntervalIndexer",
          [[("quality", "True"), ("simple or compound", "simple")]])],
        [], none) :=
  add_index_runs_once_per_settings
    [("IntervalIndexer",
      ⟨["quality", "simple or compound"],
       [("quality", "False"), ("simple or compound", "compound")],
       true, []⟩)]
    0 0 [] "IntervalIndexer"
    ⟨["quality", "simple or compound"],
     [("quality", "False"), ("simple or compound", "compound")], true, []⟩
    [("simple or compound", "simple"), ("quality", "True")]
    [("quality", "True"), ("simple or compound", "simple")]
    [("quality", "True"), ("simple or compound", "simple")]
    [("quality", "True"), ("simple or compound", "simple")]
    (by decide) (Or.inl rfl) (by decide) (by decide) (by decide)
    (by decide)

/-- Membership in a stable descending insert. -/
theorem mem_insDesc {α : Type} (f : α → Nat) (x y : α) (l : List α) :
    y ∈ insDesc f x l ↔ y = x ∨ y ∈ l := by
  induction l with
  | nil => simp [insDesc]
  | cons a as ih =>
    by_cases h : f a ≤ f x
    · simp [insDesc, h]
    · simp [insDesc, h, ih]
      tauto

/-- A stable descending insert preserves descending sortedness. -/
theorem pairwise_insDesc {α : Type} (f : α → Nat) (x : α) (l : List α)
    (h : l.Pairwise (fun a b => f b ≤ f a)) :
    (insDesc f x l).Pairwise (fun a b => f b ≤ f a) := by
  induction l with
  | nil => simp [insDesc]
  | cons a as ih =>
    rcases List.pairwise_cons.mp h with ⟨ha, has⟩
    by_cases hax : f a ≤ f x
    · simp only [insDesc, if_pos hax]
      refine List.pairwise_cons.mpr ⟨?_, h⟩
      intro b hb
      rcases List.mem_cons.mp hb with rfl | hb
      · exact hax
      · exact le_trans (ha b hb) hax
    · simp only [insDesc, if_neg hax]
      refine List.pairwise_cons.mpr ⟨?_, ih has⟩
      intro b hb
      rcases (mem_insDesc f x b as).mp hb with rfl | hb
      · exact le_of_lt (lt_of_not_le hax)
      · exact ha b hb

/-- The output of `sortDesc` is sorted by descending key. -/
theorem pairwise_sortDesc {α : Type} (f : α → Nat) (l : List α) :
    (sortDesc f l).Pairwise (fun a b => f b ≤ f a) := by
  induction l with
  | nil => simp [sortDesc]
  | cons a as ih => exact pairwise_insDesc f a (sortDesc f as) ih

/-- A stable descending insert is a permutation of consing. -/
theorem insDesc_perm {α : Type} (f : α → Nat) (x : α) (l : List α) :
    List.Perm (insDesc f x l) (x :: l) := by
  induction l with
  | nil => simp [insDesc]
  | cons a as ih =>
    by_cases h : f a ≤ f x
    · simp [insDesc, h]
    · simp only [insDesc, h, if_neg, Bool.false_eq_true, ite_false]
      exact (ih.cons a).trans (List.Perm.swap x a as)

/-- `sortDesc` permutes its input. -/
theorem sortDesc_perm {α : Type} (f : α → Nat) (l : List α) :
    List.Perm (sortDesc f l) l := by
  induction l with
  | nil => simp [sortDesc]
  | cons a as ih => exact (insDesc_perm f a (sortDesc f as)).trans (ih.cons a)

/-- On a descending-sorted list, keeping the keys at or above a threshold
is a prefix operation. -/
theorem filter_eq_takeWhile_sorted {α : Type} (f : α → Nat) (t : Nat)
    (l : List α) (h : l.Pairwise (fun a b => f b ≤ f a)) :
    l.filter (fun k => t ≤ f k) = l.takeWhile (fun k => t ≤ f k) := by
  induction l with
  | nil => rfl
  | cons a as ih =>
    rcases List.pairwise_cons.mp h with ⟨ha, has⟩
    by_cases hp : t ≤ f a
    · simp [List.filter_cons, List.takeWhile_cons, hp, ih has]
    · have : as.filter (fun k => t ≤ f k) = [] := by
        rw [List.filter_eq_nil_iff]
        intro b hb
        simp only [decide_eq_true_eq]
        exact fun hc => hp (le_trans hc (ha b hb))
      simp [List.filter_cons, List.takeWhile_cons, hp, this]

/-- `takeWhile` commutes with `take`. -/
theorem takeWhile_take_comm {α : Type} (p : α → Bool) (l : List α)
    (n : Nat) :
    (l.take n).takeWhile p = (l.takeWhile p).take n := by
  induction l generalizing n with
  | nil => simp
  | cons a as ih =>
    cases n with
    | zero => simp
    | succ m =>
      by_cases hp : p a
      · simp [List.takeWhile_cons, hp, ih m]
      · simp [List.takeWhile_cons, hp]

/-- On a descending-sorted list, the threshold filter commutes with the
top-`x` truncation. -/
theorem filter_take_comm_sorted {α : Type} (f : α → Nat) (t x : Nat)
    (l : List α) (h : l.Pairwise (fun a b => f b ≤ f a)) :
    (l.take x).filter (fun k => t ≤ f k) =
      (l.filter (fun k => t ≤ f k)).take x := by
  have hsub : (l.take x).Pairwise (fun a b => f b ≤ f a) :=
    h.sublist (List.take_sublist x l)
  rw [filter_eq_takeWhile_sorted f t (l.take x) hsub,
    filter_eq_takeWhile_sorted f t l h, takeWhile_take_comm]

/-- In a descending-sorted list, the last element has the smallest key. -/
theorem getLast_min_sorted {α : Type} (f : α → Nat) (l : List α) (z : α)
    (h : l.Pairwise (fun a b => f b ≤ f a)) (hz : l.getLast? = some z) :
    ∀ a ∈ l, f z ≤ f a := by
  induction l with
  | nil => simp at hz
  | cons a as ih =>
    rcases List.pairwise_cons.mp h with ⟨ha, has⟩
    cases as with
    | nil =>
      simp only [List.getLast?_singleton, Option.some.injEq] at hz
      subst hz
      simp
    | cons b bs =>
      have hz2 : (b :: bs).getLast? = some z := by
        rw [← hz, List.getLast?_cons_cons]
      have hzm : z ∈ b :: bs := by
        have hg := List.getLast?_eq_getLast (b :: bs) (by simp)
        rw [hg, Option.some.injEq] at hz2
        exact hz2 ▸ List.getLast_mem (by simp)
      intro c hc
      rcases List.mem_cons.mp hc with rfl | hc
      · exact ha z hzm
      · exact ih has hz2 c hc

/-- In `IntervalsStatistics.perform`, requesting both a threshold and a
top-X filter yields exactly the result of dropping the tokens whose count
is strictly below the threshold first and then keeping the top X of the
frequency-sorted remainder: although the code truncates to `topX` before
thresholding, both filters are prefix cuts of the same
descending-frequency key list, so the outcomes coincide on every nonempty
occurrence dictionary (the empty dictionary and `topX = 0` raise
`IndexError` at `self._keys[-1]`).  In particular, counts
`{m3: 12, M3: 8}` with `threshold = 10` and `topX = 5` produce exactly
`[(m3, 12)]`.  This is the aggregator-path half of the threshold/top-X
behavior; `get_dataframe_threshold_boundary` settles the workflow path. -/
theorem stats_threshold_before_top :
    (∀ (counts : List (String × Nat)) (x t : Nat) (asc : Bool),
      counts ≠ [] → x ≠ 0 →
      intervalsStatsPerform counts (some x) (some t) asc =
        some (specThresholdThenTop counts x t asc)) ∧
    intervalsStatsPerform [("m3", 12), ("M3", 8)] (some 5) (some 10) false =
      some [("m3", 12)] := by
  constructor
  · intro counts x t asc hne hx
    have hpw := pairwise_sortDesc (cntOf counts) (counts.map Prod.fst)
    have hlne : sortDesc (cntOf counts) (counts.map Prod.fst) ≠ [] := by
      intro h0
      have hlen := (sortDesc_perm (cntOf counts) (counts.map Prod.fst)).length_eq
      rw [h0] at hlen
      simp only [List.length_nil, List.length_map] at hlen
      exact hne (List.length_eq_zero.mp hlen.symm)
    have htne : (sortDesc (cntOf counts) (counts.map Prod.fst)).take x ≠ [] := by
      intro h0
      have : ((sortDesc (cntOf counts) (counts.map Prod.fst)).take x).length = 0 := by
        rw [h0]; rfl
      rw [List.length_take] at this
      rcases Nat.min_eq_zero_iff.mp this with h | h
      · exact hx h
      · exact hlne (List.length_eq_zero.mp h)
    have hlk := List.getLast?_eq_getLast
      ((sortDesc (cntOf counts) (counts.map Prod.fst)).take x) htne
    set lk := ((sortDesc (cntOf counts) (counts.map Prod.fst)).take x).getLast htne with hlkdef
    have hpwt : ((sortDesc (cntOf counts) (counts.map Prod.fst)).take x).Pairwise
        (fun a b => cntOf counts b ≤ cntOf counts a) :=
      hpw.sublist (List.take_sublist x _)
    simp only [intervalsStatsPerform, specThresholdThenTop, Option.isSome_some,
      true_or, if_true, hlk]
    by_cases hg : cntOf counts lk < t
    · rw [if_pos hg, filter_take_comm_sorted (cntOf counts) t x _ hpw]
    · rw [if_neg hg]
      have hall : ∀ a ∈ (sortDesc (cntOf counts) (counts.map Prod.fst)).take x,
          t ≤ cntOf counts a := by
        intro a ha
        exact le_trans (le_of_not_lt hg)
          (getLast_min_sorted (cntOf counts) _ lk hpwt hlk a ha)
      rw [← filter_take_comm_sorted (cntOf counts) t x _ hpw,
        List.filter_eq_self.mpr (fun a ha => by simp [hall a ha])]
  · decide

/-- The aggregator-path equivalence at a concrete instance: three tokens,
`topX = 2`, `threshold = 9`, ascending final sort. -/
theorem stats_threshold_before_top_witness :
    intervalsStatsPerform [("m3", 12), ("M3", 8), ("P5", 9)]
      (some 2) (some 9) true =
      some (specThresholdThenTop [("m3", 12), ("M3", 8), ("P5", 9)] 2 9 true) :=
  stats_threshold_before_top.1 [("m3", 12), ("M3", 8), ("P5", 9)] 2 9 true
    (by decide) (by decide)

/-- **C2** (code bug) — The threshold boundary of the claim's second cited
path.  `WorkflowManager._get_dataframe` does apply its threshold filter
before the top-X slice, but `self._result[self._result > threshold]`
(workflow.py line 576) keeps only counts **strictly greater** than the
threshold: on the series `{m3: 10}` with `threshold = 10` the count-10
token is dropped, although the claim — and the function's own docstring,
"If a result is strictly less than this number, it won't be included" —
only allows dropping counts strictly below 10.  The statistics aggregator
itself implements the claimed boundary: `IntervalsStatistics.perform`
keeps the count-10 token at `threshold = 10`, and the cited
`{m3: 12, M3: 8}` instance yields exactly `[(m3, 12)]`. -/
theorem get_dataframe_threshold_boundary :
    get_dataframe [("m3", 10)] (some 5) (some 10) = [] ∧
    intervalsStatsPerform [("m3", 10)] (some 5) (some 10) false =
      some [("m3", 10)] ∧
    intervalsStatsPerform [("m3", 12), ("M3", 8)] (some 5) (some 10) false =
      some [("m3", 12)] := by
  refine ⟨by decide, by decide, by decide⟩

/-- A successful (not killed, not raised) inner window loop certifies that
every visited offset stayed in bounds and rest-free. -/
theorem ngramJLoop_false_sound (record : List AREvent) (i : Nat)
    (js : List Nat) (cs : List (Nat × Nat))
    (h : ngramJLoop record i js = some (false, cs)) :
    ∀ j ∈ js, ¬ (record.length - 1 < i + j) ∧
      isRestEv (evAt record (i + j)) = false := by
  induction js generalizing cs with
  | nil => simp
  | cons j rest ih =>
    intro j2 hj2
    by_cases hb : record.length - 1 < i + j
    · simp [ngramJLoop, hb] at h
    · by_cases hr : isRestEv (evAt record (i + j)) = true
      · simp [ngramJLoop, hb, hr] at h
      · by_cases ho : notesOk (evAt record (i + j)) = true
        · simp only [ngramJLoop, if_neg hb, hr, if_false, Bool.false_eq_true,
            ho, if_true] at h
          rcases Option.map_eq_some'.mp h with ⟨r, hrec, hval⟩
          have hr1 : r.1 = false := by
            have := congrArg Prod.fst hval
            simpa using this
          rcases List.mem_cons.mp hj2 with rfl | hj2
          · exact ⟨hb, Bool.not_eq_true _ ▸ hr⟩
          · exact ih r.2 (by rw [← hr1]; exact hrec) j2 hj2
        · simp [ngramJLoop, hb, hr, ho] at h
  
/-- Every window the `n` loop adds starts at its start index and passed
its own inner loop without the kill switch. -/
theorem ngramNLoop_adds_sound (record : List AREvent) (i : Nat)
    (ns : List Nat) (adds cs : List (Nat × Nat))
    (h : ngramNLoop record i ns = some (adds, cs)) :
    ∀ p ∈ adds, p.1 = i ∧ ∃ cs0,
      ngramJLoop record i (List.range' 1 (p.2 - 1)) = some (false, cs0) := by
  induction ns generalizing adds cs with
  | nil =>
    simp only [ngramNLoop, Option.some.injEq] at h
    cases h
    intro p hp
    simp at hp
  | cons n rest ih =>
    by_cases ho : notesOk (evAt record i) = true
    · simp only [ngramNLoop, ho, if_true] at h
      match hj : ngramJLoop record i (List.range' 1 (n - 1)) with
      | none => rw [hj] at h; simp at h
      | some (true, cs1) =>
        rw [hj] at h
        simp only [Option.some.injEq] at h
        cases h
        intro p hp
        simp at hp
      | some (false, cs1) =>
        rw [hj] at h
        match hrec : ngramNLoop record i rest with
        | none => rw [hrec] at h; simp at h
        | some (adds2, cs2) =>
          rw [hrec] at h
          simp only [Option.some.injEq] at h
          cases h
          intro p hp
          rcases List.mem_cons.mp hp with rfl | hp
          · exact ⟨rfl, cs1, hj⟩
          · exact ih adds2 cs2 hrec p hp
    · simp [ngramNLoop, ho] at h

/-- Every window the whole scan adds has a rest-free start event and a
kill-free inner loop. -/
theorem ngramILoop_adds_sound (record : List AREvent) (ns : List Nat)
    (is : List Nat) (adds cs : List (Nat × Nat))
    (h : ngramILoop record ns is = some (adds, cs)) :
    ∀ p ∈ adds, isRestEv (evAt record p.1) = false ∧ ∃ cs0,
      ngramJLoop record p.1 (List.range' 1 (p.2 - 1)) = some (false, cs0) := by
  induction is generalizing adds cs with
  | nil =>
    simp only [ngramILoop, Option.some.injEq] at h
    cases h
    intro p hp
    simp at hp
  | cons i rest ih =>
    by_cases hr : isRestEv (evAt record i) = true
    · simp only [ngramILoop, hr, if_true] at h
      exact ih adds cs h
    · simp only [ngramILoop, hr, if_false, Bool.false_eq_true] at h
      match hn : ngramNLoop record i ns with
      | none => rw [hn] at h; simp at h
      | some (adds1, cs1) =>
        rw [hn] at h
        rcases Option.map_eq_some'.mp h with ⟨r, hrec, hval⟩
        intro p hp
        have hadds : adds = adds1 ++ r.1 := by
          have := congrArg Prod.fst hval
          simpa using this.symm
        rw [hadds] at hp
        rcases List.mem_append.mp hp with hp | hp
        · have h1 := ngramNLoop_adds_sound record i ns adds1 cs1 hn p hp
          rcases h1 with ⟨hpi, hcs⟩
          rw [hpi]
          exact ⟨Bool.not_eq_true _ ▸ hr, hcs⟩
        · exact ih r.1 r.2 (by rw [← Prod.mk.eta (p := r)]; exact hrec) p hp

/-- **C5** — The rest/boundary kill switch of
`IntervalNGramStatistics.perform`: in a scan that completes without an
exception, (a) no n-gram of any `n` is produced at a start index whose own
simultaneity involves a rest, and (b) whenever the extension offset `i+j`
(for `1 ≤ j < n`) runs past the end of the record or meets a rest-involving
simultaneity, no n-gram of that `n` — hence of any larger requested `n`,
whose window also passes through `i+j` — is produced at start index `i`. -/
theorem ngram_kill_switch (record : List AREvent) (valuesOfN : List Nat)
    (adds comps : List (Nat × Nat))
    (h : ngramScan record valuesOfN = some (adds, comps)) :
    (∀ i n, isRestEv (evAt record i) = true → (i, n) ∉ adds) ∧
    (∀ i j n, 1 ≤ j → j < n →
      (record.length - 1 < i + j ∨ isRestEv (evAt record (i + j)) = true) →
      (i, n) ∉ adds) := by
  have hsound := ngramILoop_adds_sound record (sortAsc id valuesOfN)
    (List.range record.length) adds comps h
  constructor
  · intro i n hrest hmem
    have := (hsound (i, n) hmem).1
    rw [hrest] at this
    exact Bool.true_eq_false.mp this
  · intro i j n hj1 hjn hbad hmem
    rcases hsound (i, n) hmem with ⟨_, cs0, hcs⟩
    have hjmem : j ∈ List.range' 1 (n - 1) := by
      rw [List.mem_range'_1]
      omega
    have := ngramJLoop_false_sound record i (List.range' 1 (n - 1)) cs0 hcs
      j hjmem
    rcases hbad with hbad | hbad
    · exact this.1 hbad
    · rw [hbad] at this
      exact Bool.true_eq_false.mp this.2

/-- Witness for C5: with a rest at index 1, the scan of
`[C4–E4, Rest–G4, C4–G4]` with `n ∈ {2,3}` produces no n-gram at start
index 0 (killed at `j = 1`) and none at start index 1 (rest start). -/
theorem ngram_kill_switch_witness :
    ngramScan [⟨0, "C4", "E4"⟩, ⟨1, "Rest", "G4"⟩, ⟨2, "C4", "G4"⟩] [2, 3] =
      some ([], [(0, 0), (2, 2)]) ∧
    ((0, 2) : Nat × Nat) ∉ ([] : List (Nat × Nat)) ∧
    ((1, 2) : Nat × Nat) ∉ ([] : List (Nat × Nat)) := by
  refine ⟨by decide, ?_, ?_⟩
  · exact (ngram_kill_switch
      [⟨0, "C4", "E4"⟩, ⟨1, "Rest", "G4"⟩, ⟨2, "C4", "G4"⟩] [2, 3]
      [] [(0, 0), (2, 2)] (by decide)).2 0 1 2 (by decide) (by decide)
      (Or.inr (by decide))
  · exact (ngram_kill_switch
      [⟨0, "C4", "E4"⟩, ⟨1, "Rest", "G4"⟩, ⟨2, "C4", "G4"⟩] [2, 3]
      [] [(0, 0), (2, 2)] (by decide)).1 1 2 (by decide)

/-- Every construction the inner loop logs is tagged with its start
index. -/
theorem ngramJLoop_comps_start (record : List AREvent) (i : Nat)
    (js : List Nat) (r : Bool × List (Nat × Nat))
    (h : ngramJLoop record i js = some r) :
    ∀ p ∈ r.2, p.1 = i := by
  induction js generalizing r with
  | nil =>
    simp only [ngramJLoop, Option.some.injEq] at h
    cases h
    simp
  | cons j rest ih =>
    by_cases hb : record.length - 1 < i + j
    · simp only [ngramJLoop, if_pos hb, Option.some.injEq] at h
      cases h
      simp
    · by_cases hr : isRestEv (evAt record (i + j)) = true
      · simp only [ngramJLoop, if_neg hb, hr, if_true, Option.some.injEq] at h
        cases h
        simp
      · by_cases ho : notesOk (evAt record (i + j)) = true
        · simp only [ngramJLoop, if_neg hb, hr, if_false, Bool.false_eq_true,
            ho, if_true] at h
          rcases Option.map_eq_some'.mp h with ⟨r2, hrec, hval⟩
          intro p hp
          rw [← hval] at hp
          rcases List.mem_cons.mp hp with rfl | hp
          · rfl
          · exact ih r2 hrec p hp
        · simp [ngramJLoop, hb, hr, ho] at h

/-- Every construction the `n` loop logs is tagged with its start index. -/
theorem ngramNLoop_comps_start (record : List AREvent) (i : Nat)
    (ns : List Nat) (r : List (Nat × Nat) × List (Nat × Nat))
    (h : ngramNLoop record i ns = some r) :
    ∀ p ∈ r.2, p.1 = i := by
  induction ns generalizing r with
  | nil =>
    simp only [ngramNLoop, Option.some.injEq] at h
    cases h
    simp
  | cons n rest ih =>
    by_cases ho : notesOk (evAt record i) = true
    · simp only [ngramNLoop, ho, if_true] at h
      match hj : ngramJLoop record i (List.range' 1 (n - 1)) with
      | none => rw [hj] at h; simp at h
      | some (true, cs1) =>
        rw [hj] at h
        simp only [Option.some.injEq] at h
        cases h
        intro p hp
        rcases List.mem_cons.mp hp with rfl | hp
        · rfl
        · exact ngramJLoop_comps_start record i _ (true, cs1) hj p hp
      | some (false, cs1) =>
        rw [hj] at h
        match hrec : ngramNLoop record i rest with
        | none => rw [hrec] at h; simp at h
        | some (adds2, cs2) =>
          rw [hrec] at h
          simp only [Option.some.injEq] at h
          cases h
          intro p hp
          rcases List.mem_append.mp hp with hp | hp
          · rcases List.mem_cons.mp hp with rfl | hp
            · rfl
            · exact ngramJLoop_comps_start record i _ (false, cs1) hj p hp
          · exact ih (adds2, cs2) hrec p hp
    · simp [ngramNLoop, ho] at h

/-- Every construction the scan logs is tagged with a visited start
index. -/
theorem ngramILoop_comps_start (record : List AREvent) (ns : List Nat)
    (is : List Nat) (r : List (Nat × Nat) × List (Nat × Nat))
    (h : ngramILoop record ns is = some r) :
    ∀ p ∈ r.2, p.1 ∈ is := by
  induction is generalizing r with
  | nil =>
    simp only [ngramILoop, Option.some.injEq] at h
    cases h
    simp
  | cons i rest ih =>
    by_cases hr : isRestEv (evAt record i) = true
    · simp only [ngramILoop, hr, if_true] at h
      intro p hp
      exact List.mem_cons_of_mem i (ih r h p hp)
    · simp only [ngramILoop, hr, if_false, Bool.false_eq_true] at h
      match hn : ngramNLoop record i ns with
      | none => rw [hn] at h; simp at h
      | some (adds1, cs1) =>
        rw [hn] at h
        rcases Option.map_eq_some'.mp h with ⟨r2, hrec, hval⟩
        intro p hp
        rw [← hval] at hp
        rcases List.mem_append.mp hp with hp | hp
        · rw [ngramNLoop_comps_start record i ns (adds1, cs1) hn p hp]
          exact List.mem_cons_self i rest
        · exact List.mem_cons_of_mem i (ih r2 hrec p hp)

/-- An event fetched in bounds belongs to the record. -/
theorem evAt_mem (record : List AREvent) (k : Nat)
    (h : k < record.length) : evAt record k ∈ record := by
  unfold evAt
  rw [List.getD_eq_getElem record _ h]
  exact List.getElem_mem h

/-- On a rest-free, parseable record, an inner loop whose offsets all stay
in bounds never kills and logs exactly one construction per offset. -/
theorem ngramJLoop_clean (record : List AREvent) (i : Nat) (js : List Nat)
    (hlen : 0 < record.length)
    (hb : ∀ j ∈ js, i + j < record.length)
    (hcl : ∀ e ∈ record, isRestEv e = false ∧ notesOk e = true) :
    ngramJLoop record i js = some (false, js.map (fun j => (i, i + j))) := by
  induction js with
  | nil => rfl
  | cons j rest ih =>
    have hjb : i + j < record.length := hb j (List.mem_cons_self j rest)
    have hnb : ¬ (record.length - 1 < i + j) := by omega
    have hev := hcl (evAt record (i + j)) (evAt_mem record (i + j) hjb)
    simp only [ngramJLoop, if_neg hnb, hev.1, if_false, Bool.false_eq_true,
      hev.2, if_true]
    rw [ih (fun j2 hj2 => hb j2 (List.mem_cons_of_mem j hj2))]
    rfl

/-- On a rest-free, parseable record, a start index all of whose requested
windows fit adds every window and logs one construction per window
position, the start position included once per window. -/
theorem ngramNLoop_clean (record : List AREvent) (i : Nat) (ns : List Nat)
    (hi : i < record.length)
    (hcl : ∀ e ∈ record, isRestEv e = false ∧ notesOk e = true)
    (hn : ∀ n ∈ ns, 1 ≤ n ∧ i + n ≤ record.length) :
    ngramNLoop record i ns =
      some (ns.map (fun n => (i, n)),
        ns.flatMap (fun n =>
          (List.range' 0 n).map (fun j => (i, i + j)))) := by
  induction ns with
  | nil => rfl
  | cons n rest ih =>
    have hev := hcl (evAt record i) (evAt_mem record i hi)
    rcases hn n (List.mem_cons_self n rest) with ⟨hn1, hnfit⟩
    have hj : ngramJLoop record i (List.range' 1 (n - 1)) =
        some (false, (List.range' 1 (n - 1)).map (fun j => (i, i + j))) := by
      apply ngramJLoop_clean record i _ (by omega)
      · intro j hj
        rw [List.mem_range'_1] at hj
        omega
      · exact hcl
    simp only [ngramNLoop, hev.2, if_true, hj,
      ih (fun n2 hn2 => hn n2 (List.mem_cons_of_mem n hn2))]
    have hrange : (0 : Nat) :: List.range' 1 (n - 1) = List.range' 0 n := by
      rw [show n = (n - 1) + 1 by omega, List.range'_succ]
      simp
    simp only [List.map_cons, List.flatMap_cons, Option.some.injEq,
      Prod.mk.injEq, true_and]
    rw [← hrange]
    simp

/-- Counting a shifted pair among the pairs of a duplicate-free offset
list. -/
theorem count_map_pair (i j : Nat) (L : List Nat) (hnd : L.Nodup) :
    (L.map (fun j2 => ((i, i + j2) : Nat × Nat))).count (i, i + j) =
      if j ∈ L then 1 else 0 := by
  induction L with
  | nil => simp
  | cons a as ih =>
    rcases List.nodup_cons.mp hnd with ⟨ha, hnd2⟩
    by_cases hja : j = a
    · subst hja
      have hnot : ((i, i + j) : Nat × Nat) ∉
          as.map (fun j2 => ((i, i + j2) : Nat × Nat)) := by
        intro hmem
        rcases List.mem_map.mp hmem with ⟨x, hx, hxe⟩
        have : x = j := by
          have := (Prod.mk.injEq _ _ _ _).mp hxe
          omega
        exact ha (this ▸ hx)
      simp [List.count_cons, List.count_eq_zero.mpr hnot]
    · have hne : ((i, i + j) : Nat × Nat) ≠ (i, i + a) := by
        intro hc
        have := (Prod.mk.injEq _ _ _ _).mp hc
        omega
      simp [List.count_cons, ih hnd2, hja, hne]

/-- Counting one position's constructions across the blocks of all
requested window lengths: the position at offset `j` is constructed once
for every `n` exceeding `j`. -/
theorem count_flatMap_blocks (i j : Nat) (ns : List Nat) :
    (ns.flatMap (fun n =>
        (List.range' 0 n).map (fun j2 => ((i, i + j2) : Nat × Nat)))).count
        (i, i + j) =
      (ns.filter (fun n => j < n)).length := by
  induction ns with
  | nil => rfl
  | cons n rest ih =>
    rw [List.flatMap_cons, List.count_append,
      count_map_pair i j _ (List.nodup_range' ..), ih]
    have hmem : j ∈ List.range' 0 n ↔ j < n := by
      rw [List.mem_range'_1]
      omega
    by_cases hj : j < n
    · simp [List.filter_cons, hj, hmem.mpr hj, Nat.add_comm]
    · simp [List.filter_cons, hj, fun hc => hj (hmem.mp hc)]

/-- A stable ascending insert is a permutation of consing. -/
theorem insAsc_perm {α : Type} (f : α → Nat) (x : α) (l : List α) :
    List.Perm (insAsc f x l) (x :: l) := by
  induction l with
  | nil => simp [insAsc]
  | cons a as ih =>
    by_cases h : f x ≤ f a
    · simp [insAsc, h]
    · simp only [insAsc, h, if_neg, Bool.false_eq_true, ite_false]
      exact (ih.cons a).trans (List.Perm.swap x a as)

/-- `sortAsc` permutes its input (Python's `sorted(values_of_n)`). -/
theorem sortAsc_perm {α : Type} (f : α → Nat) (l : List α) :
    List.Perm (sortAsc f l) l := by
  induction l with
  | nil => simp [sortAsc]
  | cons a as ih => exact (insAsc_perm f a (sortAsc f as)).trans (ih.cons a)

/-- On a rest-free, parseable record, the number of constructions the scan
logs for position `i + j` of start index `i` (visited once, every window
fitting) is the number of requested `n` with `j < n`. -/
theorem ngramILoop_count (record : List AREvent) (ns : List Nat)
    (is : List Nat) (i j : Nat) (adds comps : List (Nat × Nat))
    (hnd : is.Nodup) (hmem : i ∈ is) (hi : i < record.length)
    (hcl : ∀ e ∈ record, isRestEv e = false ∧ notesOk e = true)
    (hn : ∀ n ∈ ns, 1 ≤ n ∧ i + n ≤ record.length)
    (h : ngramILoop record ns is = some (adds, comps)) :
    comps.count (i, i + j) = (ns.filter (fun n => j < n)).length := by
  induction is generalizing adds comps with
  | nil => simp at hmem
  | cons k rest ih =>
    rcases List.nodup_cons.mp hnd with ⟨hk, hnd2⟩
    by_cases hik : k = i
    · subst hik
      have hev := hcl (evAt record k) (evAt_mem record k hi)
      simp only [ngramILoop, hev.1, if_false, Bool.false_eq_true,
        ngramNLoop_clean record k ns hi hcl hn] at h
      rcases Option.map_eq_some'.mp h with ⟨r2, hrec, hval⟩
      have hcomps : comps =
          (ns.flatMap (fun n =>
            (List.range' 0 n).map (fun j2 => (k, k + j2)))) ++ r2.2 := by
        have := congrArg Prod.snd hval
        simpa using this.symm
      have hzero : r2.2.count (k, k + j) = 0 := by
        rw [List.count_eq_zero]
        intro hc
        exact hk (ngramILoop_comps_start record ns rest r2 hrec (k, k + j) hc)
      rw [hcomps, List.count_append, hzero, count_flatMap_blocks,
        Nat.add_zero]
    · have hmem2 : i ∈ rest := by
        rcases List.mem_cons.mp hmem with h2 | h2
        · exact absurd h2.symm hik
        · exact h2
      by_cases hr : isRestEv (evAt record k) = true
      · simp only [ngramILoop, hr, if_true] at h
        exact ih adds comps hnd2 hmem2 h
      · simp only [ngramILoop, hr, if_false, Bool.false_eq_true] at h
        match hnl : ngramNLoop record k ns with
        | none => rw [hnl] at h; simp at h
        | some (adds1, cs1) =>
          rw [hnl] at h
          rcases Option.map_eq_some'.mp h with ⟨r2, hrec, hval⟩
          have hcomps : comps = cs1 ++ r2.2 := by
            have := congrArg Prod.snd hval
            simpa using this.symm
          have hzero : cs1.count (i, i + j) = 0 := by
            rw [List.count_eq_zero]
            intro hc
            exact hik
              (ngramNLoop_comps_start record k ns (adds1, cs1) hnl
                (i, i + j) hc).symm
          rw [hcomps, List.count_append, hzero, Nat.zero_add]
          exact ih r2.1 r2.2 hnd2 hmem2 (by rw [Prod.mk.eta]; exact hrec)

/-- **C6** (counterexample) — On the rest-free record
`[C4–E4, C4–F4, C4–G4]` with `n_values = [2, 3]`, the scan constructs the
vertical interval of position 0 twice for start index 0 (once for `n = 2`
at line 844 and once again for `n = 3`): the `n = 2` computation is not
reused, so "the vertical interval at each position is computed at most
once per start index" fails. -/
theorem ngram_prefix_sharing_fails :
    ngramScan [⟨0, "C4", "E4"⟩, ⟨1, "C4", "F4"⟩, ⟨2, "C4", "G4"⟩] [2, 3] =
      some ([(0, 2), (0, 3), (1, 2)],
        [(0, 0), (0, 1), (0, 0), (0, 1), (0, 2),
         (1, 1), (1, 2), (1, 1), (1, 2), (2, 2)]) ∧
    ([(0, 0), (0, 1), (0, 0), (0, 1), (0, 2),
      (1, 1), (1, 2), (1, 1), (1, 2), (2, 2)] :
        List (Nat × Nat)).count (0, 0) = 2 := by
  refine ⟨by decide, by decide⟩

/-- **C6** (amended) — The builder shares nothing between window lengths:
on a rest-free, parseable record, for a start index `i` all of whose
requested windows fit, the vertical interval at position `i + j` is
constructed once for every requested `n` with `j < n` (so for
`n_values = [2, 3, 4]` the intervals of the `n = 2` window are recomputed
for `n = 3` and for `n = 4`), not at most once per start index. -/
theorem ngram_recompute_per_n (record : List AREvent)
    (valuesOfN : List Nat) (i j : Nat) (adds comps : List (Nat × Nat))
    (hcl : ∀ e ∈ record, isRestEv e = false ∧ notesOk e = true)
    (hn : ∀ n ∈ valuesOfN, 1 ≤ n ∧ i + n ≤ record.length)
    (hi : i < record.length)
    (h : ngramScan record valuesOfN = some (adds, comps)) :
    comps.count (i, i + j) =
      (valuesOfN.filter (fun n => j < n)).length := by
  have hperm := sortAsc_perm id valuesOfN
  have hcount := ngramILoop_count record (sortAsc id valuesOfN)
    (List.range record.length) i j adds comps (List.nodup_range _)
    (List.mem_range.mpr hi) hi hcl
    (fun n hn2 => hn n (hperm.mem_iff.mp hn2)) h
  rw [hcount, (hperm.filter (fun n => j < n)).length_eq]

/-- Witness for C6's amended claim at the counterexample record: position
0 of start index 0 is constructed twice, once per requested `n`. -/
theorem ngram_recompute_per_n_witness :
    ([(0, 0), (0, 1), (0, 0), (0, 1), (0, 2),
      (1, 1), (1, 2), (1, 1), (1, 2), (2, 2)] :
        List (Nat × Nat)).count (0, 0 + 0) =
      ([2, 3].filter (fun n => 0 < n)).length :=
  ngram_recompute_per_n
    [⟨0, "C4", "E4"⟩, ⟨1, "C4", "F4"⟩, ⟨2, "C4", "G4"⟩] [2, 3] 0 0
    [(0, 2), (0, 3), (1, 2)]
    [(0, 0), (0, 1), (0, 0), (0, 1), (0, 2),
     (1, 1), (1, 2), (1, 1), (1, 2), (2, 2)]
    (by decide) (by decide) (by decide) (by decide)

/-- A digit character is not whitespace. -/
theorem digit_not_ws (c : Char) (h : c.isDigit = true) :
    c.isWhitespace = false := by
  by_contra hw
  rw [Bool.not_eq_false] at hw
  simp only [Char.isWhitespace, Bool.or_eq_true, decide_eq_true_eq] at hw
  rcases hw with ((hc | hc) | hc) | hc <;> subst hc <;> simp at h

/-- A digit character is neither a direction sign nor a sign `int`
accepts. -/
theorem digit_not_sign (c : Char) (h : c.isDigit = true) :
    c ≠ '+' ∧ c ≠ '-' := by
  constructor <;> intro hc <;> subst hc <;> simp at h

/-- `str.replace` of the direction characters leaves a sign-free string
unchanged. -/
theorem stripDirections_eq_self (l : List Char)
    (h : ∀ c ∈ l, c ≠ '+' ∧ c ≠ '-') : stripDirections l = l := by
  unfold stripDirections
  rw [List.filter_eq_self]
  intro a ha
  simp only [decide_eq_true_eq]
  exact fun hc => (h a ha).elim (fun h1 h2 => hc.elim h1 h2)

/-- Python's `int` on a nonempty digit string returns its value. -/
theorem pyInt_digits (ds : List Char) (hne : ds ≠ [])
    (hdig : ∀ c ∈ ds, c.isDigit = true) :
    pyInt ds = some ((digitsVal ds : Int)) := by
  have hnws : ∀ c ∈ ds, c.isWhitespace = false :=
    fun c hc => digit_not_ws c (hdig c hc)
  have htrim : ((ds.dropWhile Char.isWhitespace).reverse.dropWhile
      Char.isWhitespace).reverse = ds := by
    have h1 : ds.dropWhile Char.isWhitespace = ds := by
      cases ds with
      | nil => rfl
      | cons d rest =>
        rw [List.dropWhile_cons,
          hnws d (List.mem_cons_self d rest)]
        simp
    rw [h1]
    have h2 : ds.reverse.dropWhile Char.isWhitespace = ds.reverse := by
      cases hrev : ds.reverse with
      | nil => rfl
      | cons d rest =>
        rw [List.dropWhile_cons, hnws d ?_]
        · simp
        · have : d ∈ ds.reverse := by rw [hrev]; exact List.mem_cons_self d rest
          exact List.mem_reverse.mp this
    rw [h2, List.reverse_reverse]
  unfold pyInt
  rw [htrim]
  cases ds with
  | nil => exact absurd rfl hne
  | cons c rest =>
    have hc := hdig c (List.mem_cons_self c rest)
    rcases digit_not_sign c hc with ⟨hplus, hminus⟩
    simp only [if_neg hminus, if_neg hplus]
    rw [if_pos (List.all_eq_true.mpr (fun x hx => hdig x hx))]

/-- A quality letter is not a digit. -/
theorem qualLetter_not_digit (q : Qual) : (qualLetter q).isDigit = false := by
  cases q <;> decide

/-- A quality letter is not a direction sign. -/
theorem qualLetter_not_sign (q : Qual) :
    qualLetter q ≠ '+' ∧ qualLetter q ≠ '-' := by
  cases q <;> decide

/-- **C3** (amended) — What `interval_sorter` actually implements on
canonical labels.  For two quality-lettered labels (letter from
`{d, m, P, M, A}` followed by a nonempty digit string): equal strings give
`0`; otherwise the numeric sizes order first, and at equal size the
quality chain applies — `d` lowest, `A` highest, `m` below the remaining
two, with perfect and major comparing as equal.  For two bare digit
strings, both are prefixed `'P'` and compare purely by size.  (Mixing a
bare and a lettered label raises, per `interval_sorter_claim_fails`.)
The three cited examples hold. -/
theorem interval_sorter_amended :
    (∀ (qa qb : Qual) (sa sb : List Char), sa ≠ [] → sb ≠ [] →
      (∀ c ∈ sa, c.isDigit = true) → (∀ c ∈ sb, c.isDigit = true) →
      intervalSorterL (qualLetter qa :: sa) (qualLetter qb :: sb) =
        some (if qualLetter qa :: sa = qualLetter qb :: sb then 0
          else if digitsVal sa < digitsVal sb then -1
          else if digitsVal sb < digitsVal sa then 1
          else qualityChain (qualLetter qa) (qualLetter qb))) ∧
    (∀ (sa sb : List Char), sa ≠ [] → sb ≠ [] →
      (∀ c ∈ sa, c.isDigit = true) → (∀ c ∈ sb, c.isDigit = true) →
      intervalSorterL sa sb =
        some (if digitsVal sa < digitsVal sb then -1
          else if digitsVal sb < digitsVal sa then 1 else 0)) ∧
    interval_sorter "m3" "M3" = some (-1) ∧
    interval_sorter "A4" "d4" = some 1 ∧
    interval_sorter "3" "3" = some 0 := by
  refine ⟨?_, ?_, by decide, by decide, by decide⟩
  · intro qa qb sa sb hsa hsb hda hdb
    have hstripA : stripDirections (qualLetter qa :: sa) =
        qualLetter qa :: sa := by
      apply stripDirections_eq_self
      intro c hc
      rcases List.mem_cons.mp hc with rfl | hc
      · exact qualLetter_not_sign qa
      · exact digit_not_sign c (hda c hc)
    have hstripB : stripDirections (qualLetter qb :: sb) =
        qualLetter qb :: sb := by
      apply stripDirections_eq_self
      intro c hc
      rcases List.mem_cons.mp hc with rfl | hc
      · exact qualLetter_not_sign qb
      · exact digit_not_sign c (hdb c hc)
    simp only [intervalSorterL, hstripA, hstripB, qualLetter_not_digit,
      Bool.false_eq_true, if_false, List.drop_succ_cons, List.drop_zero]
    by_cases heq : qualLetter qa :: sa = qualLetter qb :: sb
    · rw [if_pos heq, if_pos heq]
    · rw [if_neg heq, if_neg heq,
        pyInt_digits sa hsa hda, pyInt_digits sb hsb hdb]
      show (if ((digitsVal sa : Int)) < ((digitsVal sb : Int)) then some (-1)
        else if ((digitsVal sb : Int)) < ((digitsVal sa : Int)) then some 1
        else some (qualityChain (qualLetter qa) (qualLetter qb))) = _
      by_cases h1 : digitsVal sa < digitsVal sb
      · rw [if_pos ((Nat.cast_lt (α := Int)).mpr h1), if_pos h1]
      · rw [if_neg (fun hc => h1 ((Nat.cast_lt (α := Int)).mp hc)),
          if_neg h1]
        by_cases h2 : digitsVal sb < digitsVal sa
        · rw [if_pos ((Nat.cast_lt (α := Int)).mpr h2), if_pos h2]
        · rw [if_neg (fun hc => h2 ((Nat.cast_lt (α := Int)).mp hc)),
            if_neg h2]
  · intro sa sb hsa hsb hda hdb
    have hstripA : stripDirections sa = sa :=
      stripDirections_eq_self sa (fun c hc => digit_not_sign c (hda c hc))
    have hstripB : stripDirections sb = sb :=
      stripDirections_eq_self sb (fun c hc => digit_not_sign c (hdb c hc))
    cases sa with
    | nil => exact absurd rfl hsa
    | cons a sa2 =>
      cases sb with
      | nil => exact absurd rfl hsb
      | cons b sb2 =>
        have hca : a.isDigit = true := hda a (List.mem_cons_self a sa2)
        have hcb : b.isDigit = true := hdb b (List.mem_cons_self b sb2)
        simp only [intervalSorterL, hstripA, hstripB, hca, hcb, if_true,
          List.drop_succ_cons, List.drop_zero]
        by_cases heq : ('P' :: a :: sa2 : List Char) = 'P' :: b :: sb2
        · have heq2 : (a :: sa2 : List Char) = b :: sb2 := by
            have := (List.cons.injEq _ _ _ _).mp heq
            exact this.2
          rw [if_pos heq, heq2]
          simp
        · rw [if_neg heq,
            pyInt_digits (a :: sa2) hsa hda, pyInt_digits (b :: sb2) hsb hdb]
          show (if ((digitsVal (a :: sa2) : Int)) < ((digitsVal (b :: sb2) : Int))
              then some (-1)
            else if ((digitsVal (b :: sb2) : Int)) < ((digitsVal (a :: sa2) : Int))
              then some 1
            else some (qualityChain 'P' 'P')) = _
          by_cases h1 : digitsVal (a :: sa2) < digitsVal (b :: sb2)
          · rw [if_pos ((Nat.cast_lt (α := Int)).mpr h1), if_pos h1]
          · rw [if_neg (fun hc => h1 ((Nat.cast_lt (α := Int)).mp hc)),
              if_neg h1]
            by_cases h2 : digitsVal (b :: sb2) < digitsVal (a :: sa2)
            · rw [if_pos ((Nat.cast_lt (α := Int)).mpr h2), if_pos h2]
            · rw [if_neg (fun hc => h2 ((Nat.cast_lt (α := Int)).mp hc)),
                if_neg h2]
              rfl

/-- Witness for C3's amended claim: `d5` against `A5` (equal size, the
chain puts `d` first) and the bare pair `10` against `9`. -/
theorem interval_sorter_amended_witness :
    intervalSorterL ['d', '5'] ['A', '5'] =
      some (if (['d', '5'] : List Char) = ['A', '5'] then 0
        else if digitsVal ['5'] < digitsVal ['5'] then -1
        else if digitsVal ['5'] < digitsVal ['5'] then 1
        else qualityChain 'd' 'A') ∧
    intervalSorterL ['1', '0'] ['9'] =
      some (if digitsVal ['1', '0'] < digitsVal ['9'] then -1
        else if digitsVal ['9'] < digitsVal ['1', '0'] then 1 else 0) :=
  ⟨interval_sorter_amended.1 Qual.dim Qual.aug ['5'] ['5']
      (by decide) (by decide) (by decide) (by decide),
    interval_sorter_amended.2.1 ['1', '0'] ['9']
      (by decide) (by decide) (by decide) (by decide)⟩

/-- `pyStrip` shortens or preserves its argument. -/
theorem pyStrip_length_le (l : List Char) : (pyStrip l).length ≤ l.length := by
  unfold pyStrip
  calc ((l.dropWhile Char.isWhitespace).reverse.dropWhile
          Char.isWhitespace).reverse.length
      = ((l.dropWhile Char.isWhitespace).reverse.dropWhile
          Char.isWhitespace).length := List.length_reverse _
    _ ≤ (l.dropWhile Char.isWhitespace).reverse.length :=
        (List.dropWhile_sublist _).length_le
    _ = (l.dropWhile Char.isWhitespace).length := List.length_reverse _
    _ ≤ l.length := (List.dropWhile_sublist _).length_le

/-- `str.strip()` leaves a string with no whitespace at either end
unchanged. -/
theorem pyStrip_eq_self (l : List Char)
    (hh : ∀ c, l.head? = some c → c.isWhitespace = false)
    (hl : ∀ c, l.getLast? = some c → c.isWhitespace = false) :
    pyStrip l = l := by
  have h1 : l.dropWhile Char.isWhitespace = l := by
    cases l with
    | nil => rfl
    | cons a as =>
      rw [List.dropWhile_cons, hh a rfl]
      simp
  unfold pyStrip
  rw [h1]
  have h2 : l.reverse.dropWhile Char.isWhitespace = l.reverse := by
    cases hrev : l.reverse with
    | nil => rfl
    | cons a as =>
      have ha : l.getLast? = some a := by
        rw [← List.head?_reverse, hrev]
        rfl
      rw [List.dropWhile_cons, hl a ha]
      simp
  rw [h2, List.reverse_reverse]

/-- `find(' ')` misses a space-free string from any start index. -/
theorem findIdx?_no_space (t : List Char) (h : ∀ c ∈ t, c ≠ ' ') :
    ∀ i, t.findIdx? (· = ' ') i = none := by
  induction t with
  | nil => intro i; rfl
  | cons c rest ih =>
    intro i
    rw [List.findIdx?_cons]
    have : (c = ' ') = False := by
      simp [h c (List.mem_cons_self c rest)]
    simp only [this, decide_False, Bool.false_eq_true, if_false]
    exact ih (fun x hx => h x (List.mem_cons_of_mem c hx)) (i + 1)

/-- `find(' ')` on a space-free token followed by a space finds exactly
the token's length. -/
theorem findIdx?_token_space (t : List Char) (rest : List Char)
    (h : ∀ c ∈ t, c ≠ ' ') :
    ∀ i, (t ++ ' ' :: rest).findIdx? (· = ' ') i = some (t.length + i) := by
  induction t with
  | nil =>
    intro i
    rw [List.nil_append, List.findIdx?_cons]
    simp
  | cons c t2 ih =>
    intro i
    rw [List.cons_append, List.findIdx?_cons]
    have : (c = ' ') = False := by
      simp [h c (List.mem_cons_self c t2)]
    simp only [this, decide_False, Bool.false_eq_true, if_false]
    rw [ih (fun x hx => h x (List.mem_cons_of_mem c hx)) (i + 1)]
    congr 1
    simp [List.length_cons]
    omega

/-- A well-formed token contains no space character. -/
theorem wfToken_no_space (t : List Char) (h : WfToken t) :
    ∀ c ∈ t, c ≠ ' ' := by
  intro c hc hsp
  subst hsp
  have := h.2.1 ' ' hc
  simp [Char.isWhitespace] at this

/-- The space-join of a leading token and further tokens. -/
theorem joinTokens_cons_cons (t u : List Char) (rest : List (List Char)) :
    joinTokens (t :: u :: rest) = t ++ ' ' :: joinTokens (u :: rest) := by
  simp [joinTokens, List.flatMap_cons]

/-- A join of well-formed tokens is nonempty. -/
theorem joinTokens_ne_nil (ts : List (List Char)) (hne : ts ≠ [])
    (hwf : ∀ t ∈ ts, WfToken t) : joinTokens ts ≠ [] := by
  rcases List.exists_cons_of_ne_nil hne with ⟨t, rest, rfl⟩
  have ht := (hwf t (List.mem_cons_self t rest)).1
  simp only [joinTokens]
  intro hc
  exact ht (List.append_eq_nil.mp hc).1

/-- The head of a join of well-formed tokens is not whitespace. -/
theorem joinTokens_head_not_ws (ts : List (List Char)) (hne : ts ≠ [])
    (hwf : ∀ t ∈ ts, WfToken t) :
    ∀ c, (joinTokens ts).head? = some c → c.isWhitespace = false := by
  rcases List.exists_cons_of_ne_nil hne with ⟨t, rest, rfl⟩
  have hwt := hwf t (List.mem_cons_self t rest)
  rcases List.exists_cons_of_ne_nil hwt.1 with ⟨c0, t2, rfl⟩
  intro c hc
  simp only [joinTokens, List.cons_append, List.head?_cons,
    Option.some.injEq] at hc
  subst hc
  exact Bool.eq_false_iff.mpr (hwt.2.1 c0 (List.mem_cons_self c0 t2))

/-- The last character of a join of well-formed tokens is not
whitespace. -/
theorem joinTokens_last_not_ws (ts : List (List Char)) (hne : ts ≠ [])
    (hwf : ∀ t ∈ ts, WfToken t) :
    ∀ c, (joinTokens ts).getLast? = some c → c.isWhitespace = false := by
  induction ts with
  | nil => exact absurd rfl hne
  | cons t rest ih =>
    cases rest with
    | nil =>
      intro c hc
      have hj : joinTokens [t] = t := by simp [joinTokens]
      rw [hj] at hc
      have ht := (hwf t (List.mem_cons_self t [])).1
      rw [List.getLast?_eq_getLast t ht, Option.some.injEq] at hc
      have hmem : c ∈ t := hc ▸ List.getLast_mem ht
      exact Bool.eq_false_iff.mpr
        ((hwf t (List.mem_cons_self t [])).2.1 c hmem)
    | cons u rest2 =>
      intro c hc
      rw [joinTokens_cons_cons, List.getLast?_append] at hc
      have hjne : joinTokens (u :: rest2) ≠ [] :=
        joinTokens_ne_nil (u :: rest2) (by simp)
          (fun x hx => hwf x (List.mem_cons_of_mem t hx))
      have hlast : (' ' :: joinTokens (u :: rest2)).getLast? =
          (joinTokens (u :: rest2)).getLast? := by
        cases hju : joinTokens (u :: rest2) with
        | nil => exact absurd hju hjne
        | cons d ds => rw [List.getLast?_cons_cons]
      rw [hlast] at hc
      have : (joinTokens (u :: rest2)).getLast?.isSome := by
        rw [List.getLast?_eq_getLast _ hjne]
        rfl
      rcases Option.isSome_iff_exists.mp this with ⟨d, hd⟩
      rw [hd] at hc
      simp only [Option.or_some, Option.some.injEq] at hc
      subst hc
      exact ih (by simp) (fun x hx => hwf x (List.mem_cons_of_mem t hx)) _ hd

/-- `str.strip()` leaves a join of well-formed tokens unchanged. -/
theorem pyStrip_joinTokens (ts : List (List Char)) (hne : ts ≠ [])
    (hwf : ∀ t ∈ ts, WfToken t) :
    pyStrip (joinTokens ts) = joinTokens ts :=
  pyStrip_eq_self (joinTokens ts) (joinTokens_head_not_ws ts hne hwf)
    (joinTokens_last_not_ws ts hne hwf)

/-- A found index is bounded by the start index plus the list length. -/
theorem findIdx?_some_bound (p : Char → Bool) (t : List Char) :
    ∀ i k, t.findIdx? p i = some k → i ≤ k ∧ k < i + t.length := by
  induction t with
  | nil => intro i k h; exact absurd h (by simp)
  | cons a as ih =>
    intro i k h
    rw [List.findIdx?_cons] at h
    by_cases hp : p a = true
    · rw [if_pos hp, Option.some.injEq] at h
      subst h
      simp
    · rw [if_neg hp] at h
      rcases ih (i + 1) k h with ⟨h1, h2⟩
      constructor
      · omega
      · simp only [List.length_cons]
        omega

/-- The result of `ngram_sorter`'s worker does not depend on the fuel,
as long as the fuel exceeds the length of the left string — each
recursive call of the Python function shortens the left string by at
least one character. -/
theorem ngramSorterFuel_congr (f : Nat) :
    ∀ (g : Nat) (l r : List Char), l.length < f → l.length < g →
      ngramSorterFuel f l r = ngramSorterFuel g l r := by
  induction f with
  | zero => intro g l r hf _; exact absurd hf (Nat.not_lt_zero _)
  | succ f2 ih =>
    intro g l r hf hg
    cases g with
    | zero => exact absurd hg (Nat.not_lt_zero _)
    | succ g2 =>
      simp only [ngramSorterFuel]
      cases hfi : (pyStrip l).findIdx? (· = ' ') with
      | none => cases (pyStrip r).findIdx? (· = ' ') <;> rfl
      | some li =>
        cases hri : (pyStrip r).findIdx? (· = ' ') with
        | none => rfl
        | some ri =>
          show (match intervalSorterL ((pyStrip l).take li)
              ((pyStrip r).take ri) with
            | none => none
            | some v => if v ≠ 0 then some v
                else ngramSorterFuel f2 ((pyStrip l).drop (li + 1))
                  ((pyStrip r).drop (ri + 1))) =
            (match intervalSorterL ((pyStrip l).take li)
              ((pyStrip r).take ri) with
            | none => none
            | some v => if v ≠ 0 then some v
                else ngramSorterFuel g2 ((pyStrip l).drop (li + 1))
                  ((pyStrip r).drop (ri + 1)))
          cases hv : intervalSorterL ((pyStrip l).take li)
              ((pyStrip r).take ri) with
          | none => rfl
          | some v =>
            by_cases hv0 : v ≠ 0
            · simp [hv0]
            · have hveq : v = 0 := not_not.mp hv0
              subst hveq
              simp only [ne_eq, not_true_eq_false, if_false, ite_false]
              have hli : li < (pyStrip l).length :=
                by simpa using (findIdx?_some_bound _ _ 0 li hfi).2
              have hdrop : ((pyStrip l).drop (li + 1)).length < l.length := by
                rw [List.length_drop]
                have := pyStrip_length_le l
                omega
              exact ih g2 ((pyStrip l).drop (li + 1))
                ((pyStrip r).drop (ri + 1)) (by omega) (by omega)

/-- `interval_sorter` is reflexive on any token that is still nonempty
after the direction signs are stripped. -/
theorem intervalSorterL_self (t : List Char) (hwf : WfToken t) :
    intervalSorterL t t = some 0 := by
  unfold intervalSorterL
  cases hs : stripDirections t with
  | nil => exact absurd hs hwf.2.2
  | cons c s2 =>
    by_cases hc : c.isDigit = true
    · simp [hc]
    · simp [hc]

/-- `joinTokens` of one token is the token. -/
theorem joinTokens_single (t : List Char) : joinTokens [t] = t := by
  simp [joinTokens]

/-- Length of a join with at least two tokens. -/
theorem joinTokens_length_cons_cons (t u : List Char)
    (rest : List (List Char)) :
    (joinTokens (t :: u :: rest)).length =
      t.length + ((joinTokens (u :: rest)).length + 1) := by
  rw [joinTokens_cons_cons]
  simp

/-- Dropping a leading token and the following space from a join. -/
theorem drop_token_space (t J : List Char) :
    (t ++ ' ' :: J).drop (t.length + 1) = J := by
  have h1 : t ++ ' ' :: J = (t ++ [' ']) ++ J := by simp
  rw [h1, show t.length + 1 = (t ++ [' ']).length by simp, List.drop_left]

/-- One step of `ngram_sorter` on space-joins of well-formed tokens: both
sides single gives `interval_sorter` of the tokens, a single side is
smaller, and two multi-token sides compare the leading tokens and recurse
on the remainders at one less fuel. -/
theorem ngramFuel_step (F : Nat) (t u : List Char)
    (ts us : List (List Char)) (hwt : WfToken t) (hwu : WfToken u)
    (hwts : ∀ x ∈ ts, WfToken x) (hwus : ∀ x ∈ us, WfToken x) :
    ngramSorterFuel (F + 1) (joinTokens (t :: ts)) (joinTokens (u :: us)) =
      match ts, us with
      | [], [] => intervalSorterL t u
      | [], _ :: _ => some (-1)
      | _ :: _, [] => some 1
      | _ :: _, _ :: _ =>
        match intervalSorterL t u with
        | none => none
        | some v => if v ≠ 0 then some v
            else ngramSorterFuel F (joinTokens ts) (joinTokens us) := by
  have hwallL : ∀ x ∈ t :: ts, WfToken x := by
    intro x hx
    rcases List.mem_cons.mp hx with rfl | hx
    · exact hwt
    · exact hwts x hx
  have hwallR : ∀ x ∈ u :: us, WfToken x := by
    intro x hx
    rcases List.mem_cons.mp hx with rfl | hx
    · exact hwu
    · exact hwus x hx
  have hstripL := pyStrip_joinTokens (t :: ts) (by simp) hwallL
  have hstripR := pyStrip_joinTokens (u :: us) (by simp) hwallR
  simp only [ngramSorterFuel, hstripL, hstripR]
  cases ts with
  | nil =>
    rw [joinTokens_single,
      findIdx?_no_space t (wfToken_no_space t hwt) 0]
    cases us with
    | nil =>
      rw [joinTokens_single,
        findIdx?_no_space u (wfToken_no_space u hwu) 0]
    | cons u2 us2 =>
      rw [joinTokens_cons_cons,
        findIdx?_token_space u _ (wfToken_no_space u hwu) 0]
  | cons t2 ts2 =>
    rw [joinTokens_cons_cons,
      findIdx?_token_space t _ (wfToken_no_space t hwt) 0]
    cases us with
    | nil =>
      rw [joinTokens_single,
        findIdx?_no_space u (wfToken_no_space u hwu) 0]
    | cons u2 us2 =>
      rw [joinTokens_cons_cons,
        findIdx?_token_space u _ (wfToken_no_space u hwu) 0]
      simp only [Nat.add_zero, List.take_left, drop_token_space]

/-- **C7** — The contract of `ngram_sorter` on space-joined token strings
(tokens nonempty, whitespace-free, and nonempty after direction-sign
stripping): it is reflexive; a proper prefix (same leading tokens, fewer
of them) is strictly smaller (`-1`); a single token on each side delegates
to `interval_sorter`; and with multiple tokens on both sides the leading
tokens are compared with `interval_sorter`, a nonzero (or raised) result
is returned and a zero result recurses on the remaining token strings. -/
theorem ngram_sorter_contract :
    (∀ ts : List (List Char), ts ≠ [] → (∀ t ∈ ts, WfToken t) →
      ngram_sorter (String.mk (joinTokens ts))
        (String.mk (joinTokens ts)) = some 0) ∧
    (∀ ts us : List (List Char), ts ≠ [] → us ≠ [] →
      (∀ t ∈ ts ++ us, WfToken t) →
      ngram_sorter (String.mk (joinTokens ts))
        (String.mk (joinTokens (ts ++ us))) = some (-1)) ∧
    (∀ t u : List Char, WfToken t → WfToken u →
      ngram_sorter (String.mk t) (String.mk u) = intervalSorterL t u) ∧
    (∀ (t u : List Char) (ts us : List (List Char)),
      WfToken t → WfToken u → ts ≠ [] → us ≠ [] →
      (∀ x ∈ ts, WfToken x) → (∀ x ∈ us, WfToken x) →
      ngram_sorter (String.mk (joinTokens (t :: ts)))
        (String.mk (joinTokens (u :: us))) =
        (if intervalSorterL t u = some 0
         then ngram_sorter (String.mk (joinTokens ts))
           (String.mk (joinTokens us))
         else intervalSorterL t u)) := by
  have hbase : ∀ t u : List Char, WfToken t → WfToken u →
      ngram_sorter (String.mk t) (String.mk u) = intervalSorterL t u := by
    intro t u hwt hwu
    have h1 : ngram_sorter (String.mk t) (String.mk u) =
        ngramSorterFuel ((joinTokens [t]).length + 1) (joinTokens [t])
          (joinTokens [u]) := by
      rw [joinTokens_single, joinTokens_single]
      rfl
    rw [h1, ngramFuel_step ((joinTokens [t]).length) t u [] []
      hwt hwu (by simp) (by simp)]
  have hstep : ∀ (t u : List Char) (ts us : List (List Char)),
      WfToken t → WfToken u → ts ≠ [] → us ≠ [] →
      (∀ x ∈ ts, WfToken x) → (∀ x ∈ us, WfToken x) →
      ngram_sorter (String.mk (joinTokens (t :: ts)))
        (String.mk (joinTokens (u :: us))) =
        (if intervalSorterL t u = some 0
         then ngram_sorter (String.mk (joinTokens ts))
           (String.mk (joinTokens us))
         else intervalSorterL t u) := by
    intro t u ts us hwt hwu hts hus hwts hwus
    rcases List.exists_cons_of_ne_nil hts with ⟨t2, ts2, rfl⟩
    rcases List.exists_cons_of_ne_nil hus with ⟨u2, us2, rfl⟩
    show ngramSorterFuel ((joinTokens (t :: t2 :: ts2)).length + 1)
        (joinTokens (t :: t2 :: ts2)) (joinTokens (u :: u2 :: us2)) = _
    rw [ngramFuel_step ((joinTokens (t :: t2 :: ts2)).length) t u
      (t2 :: ts2) (u2 :: us2) hwt hwu hwts hwus]
    cases hv : intervalSorterL t u with
    | none =>
      rw [if_neg (by simp)]
    | some v =>
      by_cases hv0 : v = 0
      · subst hv0
        rw [if_pos rfl]
        show ngramSorterFuel ((joinTokens (t :: t2 :: ts2)).length)
            (joinTokens (t2 :: ts2)) (joinTokens (u2 :: us2)) = _
        rw [ngramSorterFuel_congr ((joinTokens (t :: t2 :: ts2)).length)
          ((joinTokens (t2 :: ts2)).length + 1) (joinTokens (t2 :: ts2))
          (joinTokens (u2 :: us2))
          (by rw [joinTokens_length_cons_cons]; omega) (by omega)]
        rfl
      · rw [if_neg (by simp [hv0])]
        simp [hv0]
  refine ⟨?_, ?_, hbase, hstep⟩
  · intro ts
    induction ts with
    | nil => intro h; exact absurd rfl h
    | cons t rest ih =>
      intro _ hwf
      have hwt := hwf t (List.mem_cons_self t rest)
      cases rest with
      | nil =>
        rw [joinTokens_single, hbase _ _ hwt hwt]
        exact intervalSorterL_self t hwt
      | cons t2 rest2 =>
        rw [hstep t t (t2 :: rest2) (t2 :: rest2) hwt hwt (by simp) (by simp)
          (fun x hx => hwf x (List.mem_cons_of_mem t hx))
          (fun x hx => hwf x (List.mem_cons_of_mem t hx)),
          if_pos (intervalSorterL_self t hwt)]
        exact ih (by simp) (fun x hx => hwf x (List.mem_cons_of_mem t hx))
  · intro ts
    induction ts with
    | nil => intro us h; exact absurd rfl h
    | cons t rest ih =>
      intro us _ hus hwf
      have hwt := hwf t (List.mem_cons_self t _)
      rcases List.exists_cons_of_ne_nil hus with ⟨u2, us2, rfl⟩
      cases rest with
      | nil =>
        show ngramSorterFuel ((joinTokens [t]).length + 1) (joinTokens [t])
            (joinTokens (t :: u2 :: us2)) = some (-1)
        rw [ngramFuel_step ((joinTokens [t]).length) t t [] (u2 :: us2)
          hwt hwt (by simp)
          (fun x hx => hwf x (List.mem_cons_of_mem t hx))]
      | cons t2 rest2 =>
        have hwf2 : ∀ x ∈ (t2 :: rest2) ++ u2 :: us2, WfToken x :=
          fun x hx => hwf x (List.mem_cons_of_mem t hx)
        rw [show (t :: t2 :: rest2) ++ u2 :: us2 =
            t :: ((t2 :: rest2) ++ u2 :: us2) from rfl,
          hstep t t (t2 :: rest2) ((t2 :: rest2) ++ u2 :: us2) hwt hwt
            (by simp) (by simp)
            (fun x hx => hwf2 x (List.mem_append_left _ hx)) hwf2,
          if_pos (intervalSorterL_self t hwt)]
        exact ih (u2 :: us2) (by simp) (by simp) hwf2

/-- Witness for C7: the token string `"m3 P1 m3"` equals itself, and its
one-token proper prefix `"m3"` compares `-1` against it. -/
theorem ngram_sorter_contract_witness :
    ngram_sorter (String.mk (joinTokens [['m', '3'], ['P', '1'], ['m', '3']]))
      (String.mk (joinTokens [['m', '3'], ['P', '1'], ['m', '3']])) =
      some 0 ∧
    ngram_sorter (String.mk (joinTokens [['m', '3']]))
      (String.mk (joinTokens ([['m', '3']] ++ [['P', '1'], ['m', '3']]))) =
      some (-1) :=
  ⟨ngram_sorter_contract.1 [['m', '3'], ['P', '1'], ['m', '3']]
      (by decide) (by decide),
    ngram_sorter_contract.2.1 [['m', '3']] [['P', '1'], ['m', '3']]
      (by decide) (by decide) (by decide)⟩
